import Mathlib

/- Verification development for the batched write indexer
   (src/src/batched_indexer.cpp).

   Keys of the chunk store are modelled as byte lists, the durable KV store as
   a key-sorted association list, and the indexer as a state structure over
   those.  Machine integers are modelled as Nat with explicit `% 2 ^ w`
   wherever overflow is reachable. -/

/-- Big-endian fixed-width byte encoding of a natural number: `w` bytes, most
significant byte first.  Models StringUtils::serialize_uint64_t and
serialize_uint32_t; those helpers live outside src, and the spec mandates the
big-endian layout ("Big-endian encoding is mandatory so that a prefix scan
yields chunks in chunk_sequence order"). -/
def beBytes : Nat → Nat → List Nat
  | 0, _ => []
  | w + 1, n => beBytes w (n / 256) ++ [n % 256]

/-- Models StringUtils::serialize_uint64_t (8 big-endian bytes). -/
def serialize_uint64_t (n : Nat) : List Nat := beBytes 8 n

/-- Models StringUtils::serialize_uint32_t (4 big-endian bytes). -/
def serialize_uint32_t (n : Nat) : List Nat := beBytes 4 n

/-- Strict lexicographic byte-string order, as guaranteed by the sorted KV
store for its scans. -/
def keyLt : List Nat → List Nat → Bool
  | _, [] => false
  | [], _ :: _ => true
  | a :: as, b :: bs => decide (a < b) || (decide (a = b) && keyLt as bs)

/-- Reflexive lexicographic byte-string order. -/
def keyLe (a b : List Nat) : Bool := keyLt a b || a == b

/-- Models the reserved RAFT_REQ_LOG_PREFIX key namespace byte string.  The
constant is declared outside src; the claims only need it to be a fixed byte
string, so a concrete stand-in is used. -/
def RAFT_REQ_LOG_HEAD : List Nat := [36, 82, 76]

/-- Models BatchedIndexer::get_req_prefix_key:
RAFT_REQ_LOG_PREFIX + serialize_uint64_t(req_id) + "_"  (95 = the byte of
the underscore character). -/
def get_req_prefix_key (req_id : Nat) : List Nat :=
  RAFT_REQ_LOG_HEAD ++ serialize_uint64_t req_id ++ [95]

/-- The full persisted key of one chunk:
get_req_prefix_key(req_id) + serialize_uint32_t(chunk_sequence), exactly as
built at the two call sites in enqueue and in the worker loop. -/
def chunk_key (req_id seq : Nat) : List Nat :=
  get_req_prefix_key req_id ++ serialize_uint32_t seq

/- ----------------------------------------------------------------- -/
/- Basic facts about the byte encoding and the lexicographic order.  -/
/- ----------------------------------------------------------------- -/

theorem beBytes_length (w n : Nat) : (beBytes w n).length = w := by
  induction w generalizing n with
  | zero => rfl
  | succ w ih => simp [beBytes, ih]

theorem keyLt_irrefl (a : List Nat) : keyLt a a = false := by
  induction a with
  | nil => rfl
  | cons x xs ih => simp [keyLt, ih]

theorem keyLt_asymm {a b : List Nat} (h : keyLt a b = true) : keyLt b a = false := by
  induction a generalizing b with
  | nil =>
    cases b with
    | nil => simp [keyLt] at h
    | cons y ys => rfl
  | cons x xs ih =>
    cases b with
    | nil => simp [keyLt] at h
    | cons y ys =>
      simp only [keyLt, Bool.or_eq_true, Bool.and_eq_true, decide_eq_true_eq] at h
      rcases h with h | ⟨h1, h2⟩
      · have h3 : ¬ (y < x) := by omega
        have h4 : ¬ (y = x) := by omega
        simp [keyLt, h3, h4]
      · subst h1
        simp [keyLt, Nat.lt_irrefl, ih h2]

theorem keyLt_ne {a b : List Nat} (h : keyLt a b = true) : (a == b) = false := by
  cases he : a == b with
  | false => rfl
  | true =>
    have : a = b := by simpa using he
    subst this
    rw [keyLt_irrefl] at h
    exact absurd h (by simp)

theorem keyLt_append_same (p a b : List Nat) :
    keyLt (p ++ a) (p ++ b) = keyLt a b := by
  induction p with
  | nil => rfl
  | cons x xs ih => simp [keyLt, ih]

theorem keyLt_append_of_lt {a b : List Nat} (x y : List Nat)
    (hlen : a.length = b.length) (h : keyLt a b = true) :
    keyLt (a ++ x) (b ++ y) = true := by
  induction a generalizing b with
  | nil =>
    cases b with
    | nil => simp [keyLt] at h
    | cons b0 bs => simp at hlen
  | cons a0 as ih =>
    cases b with
    | nil => simp [keyLt] at h
    | cons b0 bs =>
      simp only [keyLt, Bool.or_eq_true, Bool.and_eq_true, decide_eq_true_eq] at h
      rcases h with h | ⟨h1, h2⟩
      · simp [keyLt, h]
      · subst h1
        have hl : as.length = bs.length := by simpa using hlen
        simp [keyLt, ih hl h2]

theorem beBytes_lt {w a b : Nat} (hab : a < b) (hb : b < 256 ^ w) :
    keyLt (beBytes w a) (beBytes w b) = true := by
  induction w generalizing a b with
  | zero =>
    exfalso
    simp only [pow_zero] at hb
    omega
  | succ w ih =>
    have hb' : b / 256 < 256 ^ w := by
      rw [pow_succ'] at hb
      exact Nat.div_lt_of_lt_mul hb
    have hdiv : a / 256 ≤ b / 256 := Nat.div_le_div_right (Nat.le_of_lt hab)
    rcases Nat.lt_or_ge (a / 256) (b / 256) with hlt | hge
    · exact keyLt_append_of_lt _ _ (by simp [beBytes_length]) (ih hlt hb')
    · have heq : a / 256 = b / 256 := Nat.le_antisymm hdiv hge
      have hmod : a % 256 < b % 256 := by
        have ha2 := Nat.div_add_mod a 256
        have hb2 := Nat.div_add_mod b 256
        omega
      show keyLt (beBytes w (a / 256) ++ [a % 256]) (beBytes w (b / 256) ++ [b % 256]) = true
      rw [heq, keyLt_append_same]
      simp [keyLt, hmod]

theorem beBytes_le {w a b : Nat} (hab : a ≤ b) (hb : b < 256 ^ w) :
    keyLe (beBytes w a) (beBytes w b) = true := by
  rcases Nat.lt_or_ge a b with h | h
  · simp [keyLe, beBytes_lt h hb]
  · have : a = b := Nat.le_antisymm hab h
    subst this
    simp [keyLe]

theorem keyLt_strict_prefix {t : List Nat} (h : t ≠ []) (p : List Nat) :
    keyLt p (p ++ t) = true := by
  induction p with
  | nil =>
    cases t with
    | nil => exact absurd rfl h
    | cons x xs => rfl
  | cons x xs ih => simp [keyLt, ih]

theorem keyLe_of_isPrefixOf {p k : List Nat} (h : p.isPrefixOf k = true) :
    keyLe p k = true := by
  rcases List.isPrefixOf_iff_prefix.mp h with ⟨t, rfl⟩
  cases ht : t.isEmpty with
  | true =>
    have : t = [] := List.isEmpty_iff.mp ht
    subst this
    simp [keyLe]
  | false =>
    have : t ≠ [] := by
      intro hh
      subst hh
      simp at ht
    simp [keyLe, keyLt_strict_prefix this]

theorem keyLe_append_same (p a b : List Nat) :
    keyLe (p ++ a) (p ++ b) = keyLe a b := by
  unfold keyLe
  rw [keyLt_append_same]
  have : (p ++ a == p ++ b) = (a == b) := by
    cases hab : a == b with
    | true =>
      have : a = b := by simpa using hab
      subst this
      simp
    | false =>
      have hne : a ≠ b := by
        intro hh
        subst hh
        simp at hab
      have : p ++ a ≠ p ++ b := fun hc => hne (List.append_cancel_left hc)
      simpa using this
  rw [this]

theorem chunk_key_lt {i j : Nat} (r : Nat) (hij : i < j) (hj : j < 2 ^ 32) :
    keyLt (chunk_key r i) (chunk_key r j) = true := by
  have h4 : (256 : Nat) ^ 4 = 2 ^ 32 := by norm_num
  unfold chunk_key serialize_uint32_t
  rw [keyLt_append_same]
  exact beBytes_lt hij (by rw [h4]; exact hj)

theorem chunk_key_le {i j : Nat} (r : Nat) (hij : i ≤ j) (hj : j < 2 ^ 32) :
    keyLe (chunk_key r i) (chunk_key r j) = true := by
  have h4 : (256 : Nat) ^ 4 = 2 ^ 32 := by norm_num
  unfold chunk_key serialize_uint32_t
  rw [keyLe_append_same]
  exact beBytes_le hij (by rw [h4]; exact hj)

theorem chunk_key_isPrefixOf (r s : Nat) :
    (get_req_prefix_key r).isPrefixOf (chunk_key r s) = true :=
  List.isPrefixOf_iff_prefix.mpr ⟨serialize_uint32_t s, rfl⟩

theorem chunk_key_in_delete_range {s : Nat} (r : Nat) (hs : s < 2 ^ 32) :
    (keyLe (get_req_prefix_key r) (chunk_key r s) &&
     keyLe (chunk_key r s) (get_req_prefix_key r ++ serialize_uint32_t (2 ^ 32 - 1))) = true := by
  have h1 : keyLe (get_req_prefix_key r) (chunk_key r s) = true :=
    keyLe_of_isPrefixOf (chunk_key_isPrefixOf r s)
  have h2 : keyLe (chunk_key r s) (get_req_prefix_key r ++ serialize_uint32_t (2 ^ 32 - 1)) = true :=
    chunk_key_le r (by omega) (by omega)
  rw [h1, h2]
  rfl

theorem chunk_key_notin_delete_range {r r' s' : Nat} (hne : r ≠ r')
    (hr : r < 2 ^ 64) (hr' : r' < 2 ^ 64) :
    (keyLe (get_req_prefix_key r) (chunk_key r' s') &&
     keyLe (chunk_key r' s') (get_req_prefix_key r ++ serialize_uint32_t (2 ^ 32 - 1))) = false := by
  have h8 : (256 : Nat) ^ 8 = 2 ^ 64 := by norm_num
  rcases Nat.lt_or_ge r' r with h | h
  · have hlt : keyLt (chunk_key r' s') (get_req_prefix_key r) = true := by
      show keyLt ((RAFT_REQ_LOG_HEAD ++ beBytes 8 r' ++ [95]) ++ beBytes 4 s')
        (RAFT_REQ_LOG_HEAD ++ beBytes 8 r ++ [95]) = true
      have hsh : (RAFT_REQ_LOG_HEAD ++ beBytes 8 r' ++ [95]) ++ beBytes 4 s' =
          RAFT_REQ_LOG_HEAD ++ (beBytes 8 r' ++ ([95] ++ beBytes 4 s')) := by
        simp [List.append_assoc]
      have hsh2 : RAFT_REQ_LOG_HEAD ++ beBytes 8 r ++ [95] =
          RAFT_REQ_LOG_HEAD ++ (beBytes 8 r ++ [95]) := by
        simp [List.append_assoc]
      rw [hsh, hsh2, keyLt_append_same]
      exact keyLt_append_of_lt _ _ (by simp [beBytes_length])
        (beBytes_lt h (by rw [h8]; exact hr))
    have hx : keyLt (get_req_prefix_key r) (chunk_key r' s') = false := keyLt_asymm hlt
    have hy : (get_req_prefix_key r == chunk_key r' s') = false := by
      cases he : get_req_prefix_key r == chunk_key r' s' with
      | false => rfl
      | true =>
        have : get_req_prefix_key r = chunk_key r' s' := by simpa using he
        rw [this, keyLt_irrefl] at hlt
        exact absurd hlt (by simp)
    have h1f : keyLe (get_req_prefix_key r) (chunk_key r' s') = false := by
      unfold keyLe
      rw [hx, hy]
      rfl
    rw [h1f, Bool.false_and]
  · have hrr : r < r' := Nat.lt_of_le_of_ne h hne
    have hlt : keyLt (get_req_prefix_key r ++ serialize_uint32_t (2 ^ 32 - 1))
        (chunk_key r' s') = true := by
      show keyLt ((RAFT_REQ_LOG_HEAD ++ beBytes 8 r ++ [95]) ++ beBytes 4 (2 ^ 32 - 1))
        ((RAFT_REQ_LOG_HEAD ++ beBytes 8 r' ++ [95]) ++ beBytes 4 s') = true
      have hsh : (RAFT_REQ_LOG_HEAD ++ beBytes 8 r ++ [95]) ++ beBytes 4 (2 ^ 32 - 1) =
          RAFT_REQ_LOG_HEAD ++ (beBytes 8 r ++ ([95] ++ beBytes 4 (2 ^ 32 - 1))) := by
        simp [List.append_assoc]
      have hsh2 : (RAFT_REQ_LOG_HEAD ++ beBytes 8 r' ++ [95]) ++ beBytes 4 s' =
          RAFT_REQ_LOG_HEAD ++ (beBytes 8 r' ++ ([95] ++ beBytes 4 s')) := by
        simp [List.append_assoc]
      rw [hsh, hsh2, keyLt_append_same]
      exact keyLt_append_of_lt _ _ (by simp [beBytes_length])
        (beBytes_lt hrr (by rw [h8]; exact hr'))
    have hx : keyLt (chunk_key r' s') (get_req_prefix_key r ++ serialize_uint32_t (2 ^ 32 - 1)) = false :=
      keyLt_asymm hlt
    have hy : (chunk_key r' s' == get_req_prefix_key r ++ serialize_uint32_t (2 ^ 32 - 1)) = false := by
      cases he : chunk_key r' s' == get_req_prefix_key r ++ serialize_uint32_t (2 ^ 32 - 1) with
      | false => rfl
      | true =>
        have : chunk_key r' s' = get_req_prefix_key r ++ serialize_uint32_t (2 ^ 32 - 1) := by
          simpa using he
        rw [this, keyLt_irrefl] at hlt
        exact absurd hlt (by simp)
    have h2f : keyLe (chunk_key r' s') (get_req_prefix_key r ++ serialize_uint32_t (2 ^ 32 - 1)) = false := by
      unfold keyLe
      rw [hx, hy]
      rfl
    rw [h2f, Bool.and_false]

/- ----------------------------------------------------------------- -/
/- Data model: requests, responses, routes, the chunk store.         -/
/- ----------------------------------------------------------------- -/

/-- The request object, restricted to the fields batched_indexer.cpp reads or
writes: start_ts (the req_id), route_hash, the URL-bound collection parameter,
the body, the last-chunk flag, log_index, and whether the transport has a
proceed callback (`_req != nullptr && _req->proceed_req`).  http_req's own
serialization (to_json / load_from_json) is declared outside src; per the
spec it is a symmetric pair, so the serialized form is modelled as the
request value itself. -/
structure http_req where
  start_ts : Nat
  route_hash : Nat
  params_collection : String
  body : String
  last_chunk_aggregate : Bool
  log_index : Nat
  has_proceed : Bool
deriving DecidableEq, Repr

/-- The response object, restricted to the fields the indexer touches. -/
structure http_res where
  is_alive : Bool
  status_code : Nat
deriving DecidableEq, Repr

/-- Models http_res::set_404 (a 404-equivalent response). -/
def set_404 (r : http_res) : http_res := { r with status_code := 404 }

/-- Models http_req::load_from_json applied to a stored chunk value: the spec
says handlers re-parse chunk values "via a symmetric load operation" and that
the worker first sets the body to prev_req_body; load_from_json appends the
chunk's body fragment to the body already in place and replaces the other
fields. -/
def load_from_json (cur v : http_req) : http_req :=
  { v with body := cur.body ++ v.body }

/-- A route-table entry: the async_res flag, whether its handler is the
distinguished post_create_collection handler, and the handler itself
(mutating req/res, modelled functionally). -/
structure route_path where
  async_res : Bool
  is_post_create_collection : Bool
  handler : http_req → http_res → http_req × http_res

/-- Modelled from the spec: nlohmann::json parsing of the create-collection
body is outside src; only the extraction of a top-level string "name" field
matters, modelled as an executable stand-in that recognizes bodies of the
exact shape \x7b"name":"<x>"\x7d and rejects everything else (in particular
the empty body). -/
def parse_body_name (body : String) : Option String :=
  if body.startsWith "\x7b\"name\":\"" && body.endsWith "\"\x7d" then
    some ((body.drop 9).dropRight 2)
  else none

/-- Models BatchedIndexer::get_collection_name.  `gr` is the route table
(HttpServer::get_route).  The C++ ignores get_route's boolean result and
dereferences the out-pointer unconditionally; when no route exists for the
hash and the collection parameter is empty the dereference is undefined
behavior, modelled as `none`.  When the body parse yields a name, the C++
assigns it through a reference into req->params, so the updated request is
returned alongside the name. -/
def get_collection_name (gr : Nat → Option route_path) (req : http_req) :
    Option (String × http_req) :=
  if req.params_collection ≠ "" then
    some (req.params_collection, req)
  else
    match gr req.route_hash with
    | none => none
    | some rpath =>
      if rpath.is_post_create_collection then
        match parse_body_name req.body with
        | some name => some (name, { req with params_collection := name })
        | none => some ("", req)
      else
        some ("", req)

/-- The durable chunk store: an association list kept sorted by key in
strict lexicographic order, modelling the sorted, prefix-scannable KV store. -/
abbrev Store := List (List Nat × http_req)

/-- Models Store::insert: place the pair at its sorted position (replacing an
equal key). -/
def storeInsert (k : List Nat) (v : http_req) : Store → Store
  | [] => [(k, v)]
  | kv :: rest =>
    if keyLt k kv.1 then (k, v) :: kv :: rest
    else if k == kv.1 then (k, v) :: rest
    else kv :: storeInsert k v rest

/-- Models Store::scan(seek_key): the iterator positioned at the first key not
below the seek key, yielding the remaining entries in key order. -/
def storeScan (k : List Nat) (s : Store) : Store :=
  s.filter (fun kv => keyLe k kv.1)

/-- Point lookup in the store (specification-side observer). -/
def storeLookup (k : List Nat) : Store → Option http_req
  | [] => none
  | kv :: rest => if kv.1 == k then some kv.2 else storeLookup k rest

/-- Modelled from the spec for the Store adapter: delete_range(lo, hi) with an
inclusive upper bound removes every key in [lo, hi] ("removes every persisted
chunk of a given req_id in one call, using a hi bound of prefix || 0xFFFFFFFF").
Store::delete_range itself is declared outside src. -/
def deleteRange (lo hi : List Nat) (s : Store) : Store :=
  s.filter (fun kv => !(keyLe lo kv.1 && keyLe kv.1 hi))

/- ----------------------------------------------------------------- -/
/- Registry, shard queues, indexer state.                            -/
/- ----------------------------------------------------------------- -/

/-- Models req_res_t, in constructor-argument order
(prev_req_body, req, res, batch_begin_ts, num_chunks, next_chunk_index,
is_complete). -/
structure req_res_t where
  prev_req_body : String
  req : http_req
  res : http_res
  batch_begin_ts : Nat
  num_chunks : Nat
  next_chunk_index : Nat
  is_complete : Bool
deriving DecidableEq, Repr

/-- The Registry req_res_map, modelled as an association list keyed by
req_id (std::unordered_map iteration order is unspecified; the list order
stands in for one iteration order). -/
abbrev Registry := List (Nat × req_res_t)

/-- Lookup in the Registry (req_res_map.find). -/
def regFind (rid : Nat) : Registry → Option req_res_t
  | [] => none
  | kv :: rest => if kv.1 == rid then some kv.2 else regFind rid rest

/-- In-place mutation of one Registry record through a reference. -/
def regUpdate (rid : Nat) (f : req_res_t → req_res_t) : Registry → Registry
  | [] => []
  | kv :: rest =>
    if kv.1 == rid then (kv.1, f kv.2) :: rest
    else kv :: regUpdate rid f rest

/-- Models req_res_map.erase(req_id). -/
def regErase (rid : Nat) (m : Registry) : Registry :=
  m.filter (fun kv => kv.1 != rid)

/-- The two message kinds the indexer posts to the HTTP server's dispatcher. -/
inductive Msg where
  | requestProceed (rid : Nat)
  | streamResponse (rid : Nat) (status : Nat)
deriving DecidableEq, Repr

/-- Modelled from the spec: StringUtils::hash_wy (WY-hash) is declared outside
src.  The spec requires a stable 64-bit non-cryptographic hash of the
collection name, with anonymous (empty-name) writes collapsing to shard 0;
an executable stand-in with hash("") = 0 is used. -/
def hash_wy (s : String) : Nat :=
  s.data.foldl (fun h c => (h * 31 + c.toNat + 1) % 2 ^ 64) 0

/-- The shard-queue index computed on enqueue and on snapshot restore:
StringUtils::hash_wy(coll_name) % num_threads. -/
def enqueue_queue_id (coll : String) (num_threads : Nat) : Nat :=
  hash_wy coll % num_threads

/-- Push a req_id to the back of shard queue `qid`. -/
def queuePush (qid rid : Nat) (qs : List (List Nat)) : List (List Nat) :=
  qs.set qid (qs.getD qid [] ++ [rid])

/-- The BatchedIndexer state: worker count, Registry, shard queues, the
queued_writes counter (int64_t) and the chunk store. -/
structure BI where
  num_threads : Nat
  req_res_map : Registry
  queues : List (List Nat)
  queued_writes : Int
  store : Store
deriving DecidableEq, Repr

/- ----------------------------------------------------------------- -/
/- Enqueue path.                                                     -/
/- ----------------------------------------------------------------- -/

/-- The first phase of BatchedIndexer::enqueue, under the registry mutex:
get-or-create the record and obtain this chunk's sequence number.  A fresh
record is ⟨"", req, res, now, 1, 0, false⟩ and the chunk sequence is 0;
otherwise the sequence is the current num_chunks, which is then incremented
(num_chunks is uint32_t, hence the explicit wrap). -/
def enqueue_step1 (now : Nat) (st : BI) (req : http_req) (res : http_res) :
    BI × Nat :=
  match regFind req.start_ts st.req_res_map with
  | none =>
    ({ st with req_res_map :=
        st.req_res_map ++ [(req.start_ts, ⟨"", req, res, now, 1, 0, false⟩)] }, 0)
  | some rec0 =>
    ({ st with req_res_map :=
        (regUpdate req.start_ts
          (fun r => { r with num_chunks := (r.num_chunks + 1) % 2 ^ 32 })
          st.req_res_map) },
     rec0.num_chunks)

/-- BatchedIndexer::enqueue up to and including the is_complete marking
(everything before the legacy wait and the REQUEST_PROCEED dispatch).
Returns the new state plus the is_old_serialized_request and read_more_input
flags, or `none` for the undefined-behavior path (get_collection_name
dereferencing a missing route).  Faithful ordering from the source: the chunk
value is persisted, then req->body is cleared (so the later create-collection
body parse in get_collection_name always sees an empty body), then on the
last chunk queued_writes grows by chunk_sequence+1, the req_id is pushed to
its shard queue, and is_complete is set. -/
def enqueue_main (gr : Nat → Option route_path) (now : Nat) (st : BI)
    (req : http_req) (res : http_res) : Option (BI × Bool × Bool) :=
  let p := enqueue_step1 now st req res
  let st1 := p.1
  let seq := p.2
  let key := get_req_prefix_key req.start_ts ++ serialize_uint32_t seq
  let st2 : BI := { st1 with store := storeInsert key req st1.store }
  -- req->body = "": for the first chunk the record holds this same object
  let st3 : BI :=
    if seq = 0 then
      { st2 with req_res_map :=
          (regUpdate req.start_ts
            (fun r => { r with req := { r.req with body := "" } }) st2.req_res_map) }
    else st2
  let is_old := req.start_ts == 0
  let read_more := req.has_proceed
  if req.last_chunk_aggregate then
    let st4 : BI := { st3 with queued_writes := st3.queued_writes + (seq + 1 : Nat) }
    match get_collection_name gr { req with body := "" } with
    | none => none
    | some pr =>
      -- when this request is single-chunk the record aliases the request
      -- object get_collection_name may have updated
      let st5 : BI :=
        if seq = 0 then
          { st4 with req_res_map :=
              (regUpdate req.start_ts (fun r => { r with req := pr.2 }) st4.req_res_map) }
        else st4
      let qid := enqueue_queue_id pr.1 st5.num_threads
      let st6 : BI := { st5 with queues := queuePush qid req.start_ts st5.queues }
      let st7 : BI := { st6 with req_res_map :=
          (regUpdate req.start_ts (fun r => { r with is_complete := true }) st6.req_res_map) }
      some (st7, is_old, read_more)
  else
    some (st3, is_old, read_more)

/-- The 10 ms sleep between polls of the legacy-serialized wait loop. -/
def ENQUEUE_SLEEP_MS : Nat := 10

/-- The legacy-serialized wait loop of enqueue: poll the Registry (as observed
at each iteration, `obs i`), break on the first empty observation, sleep
ENQUEUE_SLEEP_MS otherwise.  Returns (poll index at which the Registry was
observed empty, total milliseconds slept), or `none` if no observation within
`fuel` polls was empty (the loop is still blocked). -/
def legacyWaitLoop (obs : Nat → Registry) : Nat → Nat → Nat → Option (Nat × Nat)
  | 0, _, _ => none
  | fuel + 1, i, slept =>
    if (obs i).isEmpty then some (i, slept)
    else legacyWaitLoop obs fuel (i + 1) (slept + ENQUEUE_SLEEP_MS)

/-- Outcome of a full BatchedIndexer::enqueue call. -/
inductive EnqResult where
  /-- Undefined behavior: get_collection_name dereferenced a missing route. -/
  | crashed
  /-- The legacy-serialized wait never observed an empty Registry. -/
  | blocked (st : BI)
  /-- Enqueue returned; `polls` and `slept` describe the legacy wait
  (0 when the wait was not entered). -/
  | done (st : BI) (msgs : List Msg) (polls : Nat) (slept : Nat)
deriving Repr

/-- Full BatchedIndexer::enqueue: the main phase, then (for a last chunk of a
zero req_id) the legacy-serialized wait until the Registry is observed empty,
then the REQUEST_PROCEED dispatch if the transport expects one. -/
def enqueue (gr : Nat → Option route_path) (now : Nat) (obs : Nat → Registry)
    (fuel : Nat) (st : BI) (req : http_req) (res : http_res) : EnqResult :=
  match enqueue_main gr now st req res with
  | none => .crashed
  | some (st1, is_old, read_more) =>
    let msgs : List Msg :=
      if read_more then [Msg.requestProceed req.start_ts] else []
    if req.last_chunk_aggregate && is_old then
      match legacyWaitLoop obs fuel 0 0 with
      | none => .blocked st1
      | some (i, slept) => .done st1 msgs i slept
    else
      .done st1 msgs 0 0

/- ----------------------------------------------------------------- -/
/- Worker: draining one popped request.                              -/
/- ----------------------------------------------------------------- -/

/-- The worker's loop-local state while draining one request: the request and
response objects (mutated through shared references), the prev_req_body
reference, the record's next_chunk_index, the queued_writes counter, the
messages dispatched so far and the number of chunks fully applied. -/
structure DrainState where
  req : http_req
  res : http_res
  prev_body : String
  next_chunk_index : Nat
  queued_writes : Int
  msgs : List Msg
  processed : Nat
deriving Repr

/-- The while loop of the worker in BatchedIndexer::run, iterating over the
scan result: while the key still carries the request prefix, set the body to
prev_body and load the chunk; if a route was found run its handler, save the
body carry-over and (for a live request with a sync route) dispatch
STREAM_RESPONSE, then decrement queued_writes, advance next_chunk_index and
check quit; if no route was found set a 404, dispatch STREAM_RESPONSE for a
live request and stop draining.  `quitSig n` tells whether the quit flag is
observed set after n chunks have been applied. -/
def drainLoop (rp : Option route_path) (is_live : Bool) (pre : List Nat)
    (quitSig : Nat → Bool) (rid : Nat) :
    Store → DrainState → DrainState
  | [], ds => ds
  | kv :: rest, ds =>
    if pre.isPrefixOf kv.1 then
      let reqL := load_from_json { ds.req with body := ds.prev_body } kv.2
      match rp with
      | some rpath =>
        let pr := rpath.handler reqL ds.res
        let msgs1 :=
          if is_live && !rpath.async_res then
            ds.msgs ++ [Msg.streamResponse rid pr.2.status_code]
          else ds.msgs
        let ds1 : DrainState :=
          { req := pr.1, res := pr.2, prev_body := pr.1.body,
            next_chunk_index := ds.next_chunk_index + 1,
            queued_writes := ds.queued_writes - 1,
            msgs := msgs1, processed := ds.processed + 1 }
        if quitSig ds1.processed then ds1
        else drainLoop rp is_live pre quitSig rid rest ds1
      | none =>
        let res1 := set_404 ds.res
        let msgs1 :=
          if is_live then ds.msgs ++ [Msg.streamResponse rid res1.status_code]
          else ds.msgs
        { ds with req := reqL, res := res1, msgs := msgs1 }
    else ds

/-- One iteration of the worker thread body in BatchedIndexer::run for a
req_id just popped from its shard queue: look the record up (operator[] on a
missing key would default-construct and crash downstream, modelled as none),
scan the store from chunk_key(req_id, next_chunk_index), run the drain loop,
then unconditionally range-delete the request's whole chunk-key range and
erase the Registry record.  Returns the new indexer state plus the final
loop-local state (whose msgs field lists the dispatched messages). -/
def runRequest (gr : Nat → Option route_path) (quitSig : Nat → Bool)
    (st : BI) (rid : Nat) : Option (BI × DrainState) :=
  match regFind rid st.req_res_map with
  | none => none
  | some rec0 =>
    let pre := get_req_prefix_key rid
    let scanL := storeScan (pre ++ serialize_uint32_t rec0.next_chunk_index) st.store
    let ds0 : DrainState :=
      { req := rec0.req, res := rec0.res, prev_body := rec0.prev_req_body,
        next_chunk_index := rec0.next_chunk_index,
        queued_writes := st.queued_writes, msgs := [], processed := 0 }
    let ds1 := drainLoop (gr rec0.req.route_hash) rec0.res.is_alive pre quitSig rid scanL ds0
    some ({ st with
            store := deleteRange pre (pre ++ serialize_uint32_t (2 ^ 32 - 1)) st.store,
            req_res_map := regErase rid st.req_res_map,
            queued_writes := ds1.queued_writes },
          ds1)

/- ----------------------------------------------------------------- -/
/- GC loop.                                                          -/
/- ----------------------------------------------------------------- -/

/-- Modelled from the spec: the GC interval constant is declared in the
header outside src; the spec's reference value is 60 seconds. -/
def GC_INTERVAL_SECONDS : Nat := 60

/-- Modelled from the spec: the prune horizon constant is declared in the
header outside src; the spec's reference value is 3600 seconds. -/
def GC_PRUNE_MAX_SECONDS : Nat := 3600

/-- uint64_t subtraction a - b with wraparound, as computed for
seconds_since_batch_start. -/
def sub64 (a b : Nat) : Nat := (a + (2 ^ 64 - b % 2 ^ 64)) % 2 ^ 64

/-- Whether one Registry record is pruned by GC:
seconds_since_batch_start > GC_PRUNE_MAX_SECONDS. -/
def gcExpired (now : Nat) (r : req_res_t) : Bool :=
  decide (GC_PRUNE_MAX_SECONDS < sub64 now r.batch_begin_ts)

/-- One due GC tick of the main loop in BatchedIndexer::run: for every record
whose age exceeds GC_PRUNE_MAX_SECONDS, range-delete its chunk-key range
(keyed by the record's req->start_ts) and erase the record; all other records
are kept. -/
def gcTick (now : Nat) (st : BI) : BI :=
  { st with
    req_res_map := st.req_res_map.filter (fun kv => !gcExpired now kv.2),
    store :=
      (st.req_res_map.foldl
        (fun s kv =>
          if gcExpired now kv.2 then
            deleteRange (get_req_prefix_key kv.2.req.start_ts)
              (get_req_prefix_key kv.2.req.start_ts ++ serialize_uint32_t (2 ^ 32 - 1)) s
          else s)
        st.store) }

/- ----------------------------------------------------------------- -/
/- Snapshot serialization and restore.                               -/
/- ----------------------------------------------------------------- -/

/-- One entry of the snapshot document's req_res_map object, with the exact
fields serialize_state emits; `req` is the request's own serialized form
(modelled as the request value, since to_json/load_from_json are a symmetric
pair declared outside src). -/
structure snap_entry where
  batch_begin_ts : Nat
  num_chunks : Nat
  next_chunk_index : Nat
  is_complete : Bool
  req : http_req
  prev_req_body : String
deriving DecidableEq, Repr

/-- The snapshot document: queued_writes plus the serialized req_res_map. -/
structure snap_state where
  queued_writes : Int
  req_res_map : List (Nat × snap_entry)
deriving DecidableEq, Repr

/-- Models BatchedIndexer::serialize_state: emit queued_writes and, for every
Registry entry, batch_begin_ts, num_chunks, next_chunk_index, is_complete,
the serialized request and prev_req_body. -/
def serialize_state (st : BI) : snap_state :=
  { queued_writes := st.queued_writes,
    req_res_map :=
      (st.req_res_map.map (fun kv =>
        (kv.1, ⟨kv.2.batch_begin_ts, kv.2.num_chunks, kv.2.next_chunk_index,
                kv.2.is_complete, kv.2.req, kv.2.prev_req_body⟩))) }

/-- A freshly constructed http_req, before load_from_json fills it. -/
def http_req_init : http_req :=
  { start_ts := 0, route_hash := 0, params_collection := "", body := "",
    last_chunk_aggregate := false, log_index := 0, has_proceed := false }

/-- A freshly constructed http_res(nullptr): no live client. -/
def http_res_init : http_res := { is_alive := false, status_code := 200 }

/-- std::sort of one shard queue in ascending req_id order, applied per queue
id recorded during restore. -/
def sortQueues (qids : List Nat) (qs : List (List Nat)) : List (List Nat) :=
  qids.foldl (fun qs' qid => qs'.set qid (List.insertionSort (· ≤ ·) (qs'.getD qid []))) qs

/-- The restore loop of BatchedIndexer::load_state over the snapshot entries:
rebuild each record (fresh response handle, request re-loaded from its
serialized form), emplace it, and for a complete record resolve the
collection (the record aliases the request object get_collection_name may
update), record the shard queue id and push req->start_ts onto that queue.
Returns the accumulated state and queue-id list, or none on the
undefined-behavior path of get_collection_name. -/
def load_entries (gr : Nat → Option route_path) (N : Nat) :
    List (Nat × snap_entry) → BI → List Nat → Option (BI × List Nat)
  | [], st, qids => some (st, qids)
  | (rid, e) :: rest, st, qids =>
    let req := load_from_json http_req_init e.req
    let rec1 : req_res_t :=
      ⟨e.prev_req_body, req, http_res_init, e.batch_begin_ts,
       e.num_chunks, e.next_chunk_index, e.is_complete⟩
    let st1 : BI := { st with req_res_map := st.req_res_map ++ [(rid, rec1)] }
    if e.is_complete then
      match get_collection_name gr req with
      | none => none
      | some pr =>
        let st2 : BI := { st1 with req_res_map :=
            (regUpdate rid (fun r => { r with req := pr.2 }) st1.req_res_map) }
        let qid := enqueue_queue_id pr.1 N
        let st3 : BI := { st2 with queues := queuePush qid pr.2.start_ts st2.queues }
        load_entries gr N rest st3 (qids ++ [qid])
    else
      load_entries gr N rest st1 qids

/-- Models BatchedIndexer::load_state on a fresh indexer with N worker
threads: restore queued_writes, rebuild the Registry, enqueue completed
records to their collection-derived shard queues, then sort each touched
queue ascending to preserve original submission order. -/
def load_state (gr : Nat → Option route_path) (N : Nat) (snap : snap_state) :
    Option BI :=
  let st0 : BI :=
    { num_threads := N, req_res_map := [], queues := List.replicate N [],
      queued_writes := snap.queued_writes, store := [] }
  (load_entries gr N snap.req_res_map st0 []).map
    (fun p => { p.1 with queues := sortQueues p.2 p.1.queues })

/-- One chunk's request object as delivered by the upstream log: same req_id,
route hash and URL parameters across chunks of one request, varying body,
with the last-chunk flag on the final chunk. -/
def mkChunkReq (rid rh : Nat) (pcoll body : String) (lastc : Bool) (li : Nat) : http_req :=
  { start_ts := rid, route_hash := rh, params_collection := pcoll, body := body,
    last_chunk_aggregate := lastc, log_index := li, has_proceed := false }

/-- Driver: deliver the chunks of one request to enqueue in order (the
upstream log is ordered and serial per req_id), flagging the final chunk as
the last of its batch. -/
def enqueueChunks (gr : Nat → Option route_path) (now rid rh : Nat)
    (pcoll : String) (res : http_res) : BI → List String → Nat → Option BI
  | st, [], _ => some st
  | st, b :: rest, i =>
    match enqueue_main gr now st (mkChunkReq rid rh pcoll b rest.isEmpty i) res with
    | none => none
    | some p => enqueueChunks gr now rid rh pcoll res p.1 rest (i + 1)

/-- The store entries that enqueueChunks persists for chunks b0, b1, ... of
one request starting at sequence i: key chunk_key(rid, i+j), value the j-th
chunk request (the last one flagged). -/
def chunkEntriesFor (rid rh : Nat) (pcoll : String) : List String → Nat → Store
  | [], _ => []
  | b :: rest, i =>
    (chunk_key rid i, mkChunkReq rid rh pcoll b rest.isEmpty i) ::
      chunkEntriesFor rid rh pcoll rest (i + 1)

/- ----------------------------------------------------------------- -/
/- Helper lemmas about the store.                                    -/
/- ----------------------------------------------------------------- -/

theorem keyLe_not_of_gt {a b : List Nat} (h : keyLt b a = true) : keyLe a b = false := by
  unfold keyLe
  rw [keyLt_asymm h]
  cases he : a == b with
  | false => rfl
  | true =>
    have : a = b := by simpa using he
    subst this
    rw [keyLt_irrefl] at h
    exact absurd h (by simp)

theorem storeInsert_append {k : List Nat} {v : http_req} {s : Store}
    (h : ∀ kv ∈ s, keyLt kv.1 k = true) : storeInsert k v s = s ++ [(k, v)] := by
  induction s with
  | nil => rfl
  | cons kv rest ih =>
    have hk : keyLt kv.1 k = true := h kv (by simp)
    have h1 : keyLt k kv.1 = false := keyLt_asymm hk
    have h2 : (k == kv.1) = false := by
      cases he : k == kv.1 with
      | false => rfl
      | true =>
        have : k = kv.1 := by simpa using he
        rw [this, keyLt_irrefl] at hk
        exact absurd hk (by simp)
    simp only [storeInsert, h1, h2]
    rw [ih (fun kv2 hm => h kv2 (by simp [hm]))]
    simp

theorem storeScan_all_lt {k : List Nat} {s : Store}
    (h : ∀ kv ∈ s, keyLt kv.1 k = true) : storeScan k s = [] := by
  induction s with
  | nil => rfl
  | cons kv rest ih =>
    have hk : keyLe k kv.1 = false := keyLe_not_of_gt (h kv (by simp))
    simp only [storeScan, List.filter_cons, hk]
    exact ih (fun kv2 hm => h kv2 (by simp [hm]))

theorem storeScan_append (k : List Nat) (s t : Store) :
    storeScan k (s ++ t) = storeScan k s ++ storeScan k t := by
  simp [storeScan, List.filter_append]

theorem storeScan_all_ge {k : List Nat} {s : Store}
    (h : ∀ kv ∈ s, keyLe k kv.1 = true) : storeScan k s = s := by
  induction s with
  | nil => rfl
  | cons kv rest ih =>
    have hh : keyLe k kv.1 = true := h kv (by simp)
    have ih2 := ih (fun kv2 hm => h kv2 (by simp [hm]))
    simp only [storeScan] at ih2
    simp [storeScan, List.filter_cons, hh, ih2]

theorem storeLookup_deleteRange_in {lo hi k : List Nat} {s : Store}
    (h : (keyLe lo k && keyLe k hi) = true) :
    storeLookup k (deleteRange lo hi s) = none := by
  induction s with
  | nil => rfl
  | cons kv rest ih =>
    simp only [deleteRange, List.filter_cons]
    cases he : kv.1 == k with
    | true =>
      have : kv.1 = k := by simpa using he
      rw [this, h]
      simpa [deleteRange] using ih
    | false =>
      cases hp : !(keyLe lo kv.1 && keyLe kv.1 hi) with
      | true =>
        simp only [if_pos rfl]
        show storeLookup k (kv :: deleteRange lo hi rest) = none
        simp only [storeLookup, he]
        simpa [deleteRange] using ih
      | false =>
        simp only [Bool.false_eq_true, if_false]
        simpa [deleteRange] using ih

theorem storeLookup_deleteRange_out {lo hi k : List Nat} {s : Store}
    (h : (keyLe lo k && keyLe k hi) = false) :
    storeLookup k (deleteRange lo hi s) = storeLookup k s := by
  induction s with
  | nil => rfl
  | cons kv rest ih =>
    simp only [deleteRange, List.filter_cons]
    cases he : kv.1 == k with
    | true =>
      have hkv : kv.1 = k := by simpa using he
      have : (!(keyLe lo kv.1 && keyLe kv.1 hi)) = true := by
        rw [hkv, h]
        rfl
      rw [this]
      simp only [if_pos rfl]
      show storeLookup k (kv :: deleteRange lo hi rest) = storeLookup k (kv :: rest)
      simp [storeLookup, he]
    | false =>
      cases hp : !(keyLe lo kv.1 && keyLe kv.1 hi) with
      | true =>
        simp only [if_pos rfl]
        show storeLookup k (kv :: deleteRange lo hi rest) = storeLookup k (kv :: rest)
        simp only [storeLookup, he]
        simpa [deleteRange] using ih
      | false =>
        simp only [Bool.false_eq_true, if_false]
        rw [show storeLookup k (kv :: rest) = storeLookup k rest by simp [storeLookup, he]]
        simpa [deleteRange] using ih

theorem storeLookup_none_deleteRange {lo hi k : List Nat} {s : Store}
    (h : storeLookup k s = none) :
    storeLookup k (deleteRange lo hi s) = none := by
  induction s with
  | nil => rfl
  | cons kv rest ih =>
    have he : (kv.1 == k) = false := by
      cases he2 : kv.1 == k with
      | false => rfl
      | true => simp [storeLookup, he2] at h
    have h2 : storeLookup k rest = none := by
      simpa [storeLookup, he] using h
    simp only [deleteRange, List.filter_cons]
    cases hp : !(keyLe lo kv.1 && keyLe kv.1 hi) with
    | true =>
      simp only [if_pos rfl]
      show storeLookup k (kv :: deleteRange lo hi rest) = none
      simp only [storeLookup, he]
      simpa [deleteRange] using ih h2
    | false =>
      simp only [Bool.false_eq_true, if_false]
      simpa [deleteRange] using ih h2

/- ----------------------------------------------------------------- -/
/- Helper lemmas about the Registry.                                 -/
/- ----------------------------------------------------------------- -/

theorem regFind_mem {rid : Nat} {m : Registry} {r : req_res_t}
    (h : regFind rid m = some r) : (rid, r) ∈ m := by
  induction m with
  | nil => simp [regFind] at h
  | cons kv rest ih =>
    obtain ⟨k1, k2⟩ := kv
    by_cases he : k1 = rid
    · subst he
      have : k2 = r := by simpa [regFind] using h
      subst this
      exact List.mem_cons_self _ _
    · have h2 : regFind rid rest = some r := by simpa [regFind, he] using h
      exact List.mem_cons_of_mem _ (ih h2)

theorem regFind_append_left {rid : Nat} {m : Registry} {r : req_res_t}
    (m2 : Registry) (h : regFind rid m = some r) :
    regFind rid (m ++ m2) = some r := by
  induction m with
  | nil => simp [regFind] at h
  | cons kv rest ih =>
    by_cases he : kv.1 = rid
    · simp_all [regFind, he]
    · simp_all [regFind, he]

theorem regFind_append_right {rid : Nat} {m : Registry}
    (m2 : Registry) (h : regFind rid m = none) :
    regFind rid (m ++ m2) = regFind rid m2 := by
  induction m with
  | nil => rfl
  | cons kv rest ih =>
    by_cases he : kv.1 = rid
    · simp [regFind, he] at h
    · have hbe : (kv.1 == rid) = false := by simpa using he
      simp only [regFind, hbe, Bool.false_eq_true, if_false] at h
      simp only [List.cons_append, regFind, hbe, Bool.false_eq_true, if_false]
      exact ih h

theorem regUpdate_append_right {rid : Nat} {m : Registry} {r : req_res_t}
    (f : req_res_t → req_res_t) (h : regFind rid m = none) :
    regUpdate rid f (m ++ [(rid, r)]) = m ++ [(rid, f r)] := by
  induction m with
  | nil => simp [regUpdate]
  | cons kv rest ih =>
    by_cases he : kv.1 = rid
    · simp [regFind, he] at h
    · simp only [regFind, beq_iff_eq, he, if_false] at h
      simp only [List.cons_append, regUpdate, beq_iff_eq, he, if_false]
      simp only [List.append_eq]
      rw [ih h]

theorem regFind_regUpdate_self {rid : Nat} {m : Registry} {r : req_res_t}
    (f : req_res_t → req_res_t) (h : regFind rid m = some r) :
    regFind rid (regUpdate rid f m) = some (f r) := by
  induction m with
  | nil => simp [regFind] at h
  | cons kv rest ih =>
    by_cases he : kv.1 = rid
    · simp_all [regFind, regUpdate, he]
    · simp only [regFind, beq_iff_eq, he, if_false] at h
      simp only [regUpdate, beq_iff_eq, he, if_false, regFind]
      exact ih h

theorem regFind_regErase_self (rid : Nat) (m : Registry) :
    regFind rid (regErase rid m) = none := by
  induction m with
  | nil => rfl
  | cons kv rest ih =>
    by_cases he : kv.1 = rid
    · simpa [regErase, List.filter_cons, he] using ih
    · simp only [regErase, List.filter_cons] at ih ⊢
      have : (kv.1 != rid) = true := by simpa using he
      rw [this]
      simp only [if_pos rfl, regFind]
      have h2 : (kv.1 == rid) = false := by simpa using he
      rw [h2]
      simpa using ih

theorem regFind_eq_none_of_not_mem {rid : Nat} {m : Registry}
    (h : rid ∉ m.map Prod.fst) : regFind rid m = none := by
  induction m with
  | nil => rfl
  | cons kv rest ih =>
    simp only [List.map_cons, List.mem_cons] at h
    push_neg at h
    simp only [regFind, beq_iff_eq]
    rw [if_neg (fun hh => h.1 hh.symm)]
    exact ih h.2

theorem regFind_filter_of_true {rid : Nat} {m : Registry} {r : req_res_t}
    {p : Nat × req_res_t → Bool}
    (h : regFind rid m = some r) (hp : p (rid, r) = true) :
    regFind rid (m.filter p) = some r := by
  induction m with
  | nil => simp [regFind] at h
  | cons kv rest ih =>
    by_cases he : kv.1 = rid
    · have hkv : kv = (rid, r) := by
        obtain ⟨k1, k2⟩ := kv
        simp only at he
        subst he
        have : k2 = r := by simpa [regFind] using h
        rw [this]
      subst hkv
      simp [List.filter_cons, hp, regFind]
    · have h2 : regFind rid rest = some r := by
        simpa [regFind, he] using h
      simp only [List.filter_cons]
      cases hq : p kv with
      | true =>
        simp only [if_pos rfl, regFind, beq_iff_eq, he, if_false]
        exact ih h2
      | false =>
        simp only [Bool.false_eq_true, if_false]
        exact ih h2

theorem regFind_filter_of_false {rid : Nat} {m : Registry} {r : req_res_t}
    {p : Nat × req_res_t → Bool}
    (hnd : (m.map Prod.fst).Nodup)
    (h : regFind rid m = some r) (hp : p (rid, r) = false) :
    regFind rid (m.filter p) = none := by
  induction m with
  | nil => simp [regFind] at h
  | cons kv rest ih =>
    simp only [List.map_cons, List.nodup_cons] at hnd
    by_cases he : kv.1 = rid
    · have hkv : kv = (rid, r) := by
        obtain ⟨k1, k2⟩ := kv
        simp only at he
        subst he
        have : k2 = r := by simpa [regFind] using h
        rw [this]
      subst hkv
      simp only [List.filter_cons, hp, Bool.false_eq_true, if_false]
      apply regFind_eq_none_of_not_mem
      intro hm
      apply hnd.1
      have : rid ∈ rest.map Prod.fst := by
        rcases List.mem_map.mp hm with ⟨kv2, hkv2, hfst⟩
        rcases List.mem_filter.mp hkv2 with ⟨hkv3, _⟩
        exact List.mem_map.mpr ⟨kv2, hkv3, hfst⟩
      exact this
    · have h2 : regFind rid rest = some r := by
        simpa [regFind, he] using h
      simp only [List.filter_cons]
      cases hq : p kv with
      | true =>
        simp only [if_pos rfl, regFind, beq_iff_eq, he, if_false]
        exact ih hnd.2 h2
      | false =>
        simp only [Bool.false_eq_true, if_false]
        exact ih hnd.2 h2

/- ----------------------------------------------------------------- -/
/- Helper lemmas about the drain loop and enqueue.                   -/
/- ----------------------------------------------------------------- -/

theorem drainLoop_run_all (rpath : route_path) (is_live : Bool) (pre : List Nat)
    (rid : Nat) :
    ∀ (L : Store) (ds : DrainState), (∀ kv ∈ L, pre.isPrefixOf kv.1 = true) →
      (drainLoop (some rpath) is_live pre (fun _ => false) rid L ds).queued_writes =
        ds.queued_writes - L.length ∧
      (drainLoop (some rpath) is_live pre (fun _ => false) rid L ds).next_chunk_index =
        ds.next_chunk_index + L.length ∧
      (drainLoop (some rpath) is_live pre (fun _ => false) rid L ds).processed =
        ds.processed + L.length := by
  intro L
  induction L with
  | nil => intro ds h; simp [drainLoop]
  | cons kv rest ih =>
    intro ds h
    have hpre : pre.isPrefixOf kv.1 = true := h kv (by simp)
    have hrest : ∀ kv2 ∈ rest, pre.isPrefixOf kv2.1 = true :=
      fun kv2 hm => h kv2 (List.mem_cons_of_mem _ hm)
    simp only [drainLoop, hpre, if_true, Bool.false_eq_true, if_false]
    have hstep : ∀ ds1 : DrainState, ds1.processed = ds.processed + 1 →
        ds1.next_chunk_index = ds.next_chunk_index + 1 →
        ds1.queued_writes = ds.queued_writes - 1 →
        (drainLoop (some rpath) is_live pre (fun _ => false) rid rest ds1).queued_writes =
          ds.queued_writes - (kv :: rest).length ∧
        (drainLoop (some rpath) is_live pre (fun _ => false) rid rest ds1).next_chunk_index =
          ds.next_chunk_index + (kv :: rest).length ∧
        (drainLoop (some rpath) is_live pre (fun _ => false) rid rest ds1).processed =
          ds.processed + (kv :: rest).length := by
      intro ds1 h1 h2 h3
      have hr := ih ds1 hrest
      refine ⟨?_, ?_, ?_⟩
      · rw [hr.1, h3]
        simp only [List.length_cons]
        omega
      · rw [hr.2.1, h2]
        simp only [List.length_cons]
        omega
      · rw [hr.2.2, h1]
        simp only [List.length_cons]
        omega
    exact hstep _ rfl rfl rfl

theorem drainLoop_quit_at (rpath : route_path) (is_live : Bool) (pre : List Nat)
    (rid n : Nat) :
    ∀ (L : Store) (ds : DrainState) (m : Nat), 0 < m → ds.processed + m = n →
      m ≤ L.length → (∀ kv ∈ L, pre.isPrefixOf kv.1 = true) →
      (drainLoop (some rpath) is_live pre (fun c => c == n) rid L ds).processed = n ∧
      (drainLoop (some rpath) is_live pre (fun c => c == n) rid L ds).next_chunk_index =
        ds.next_chunk_index + m ∧
      (drainLoop (some rpath) is_live pre (fun c => c == n) rid L ds).queued_writes =
        ds.queued_writes - m := by
  intro L
  induction L with
  | nil =>
    intro ds m hm hn hlen h
    simp only [List.length_nil, Nat.le_zero] at hlen
    omega
  | cons kv rest ih =>
    intro ds m hm hn hlen h
    have hpre : pre.isPrefixOf kv.1 = true := h kv (by simp)
    have hrest : ∀ kv2 ∈ rest, pre.isPrefixOf kv2.1 = true :=
      fun kv2 hm2 => h kv2 (List.mem_cons_of_mem _ hm2)
    simp only [drainLoop, hpre, if_true]
    by_cases hm1 : m = 1
    · subst hm1
      have hc : (ds.processed + 1 == n) = true := by
        simp only [beq_iff_eq]
        omega
      simp only [hc, if_true]
      exact ⟨hn, by simp, by simp⟩
    · have hc : (ds.processed + 1 == n) = false := by
        simp only [beq_eq_false_iff_ne, ne_eq]
        omega
      simp only [hc, Bool.false_eq_true, if_false]
      have hstep : ∀ ds1 : DrainState, ds1.processed = ds.processed + 1 →
          ds1.next_chunk_index = ds.next_chunk_index + 1 →
          ds1.queued_writes = ds.queued_writes - 1 →
          (drainLoop (some rpath) is_live pre (fun c => c == n) rid rest ds1).processed = n ∧
          (drainLoop (some rpath) is_live pre (fun c => c == n) rid rest ds1).next_chunk_index =
            ds.next_chunk_index + m ∧
          (drainLoop (some rpath) is_live pre (fun c => c == n) rid rest ds1).queued_writes =
            ds.queued_writes - m := by
        intro ds1 h1 h2 h3
        have hr := ih ds1 (m - 1) (by omega) (by omega)
          (by simp only [List.length_cons] at hlen; omega) hrest
        refine ⟨hr.1, ?_, ?_⟩
        · rw [hr.2.1, h2]
          omega
        · rw [hr.2.2, h3]
          omega
      exact hstep _ rfl rfl rfl

theorem enqueue_step1_num_threads (now : Nat) (st : BI) (req : http_req) (res : http_res) :
    (enqueue_step1 now st req res).1.num_threads = st.num_threads := by
  unfold enqueue_step1
  cases regFind req.start_ts st.req_res_map <;> rfl

theorem enqueue_step1_queues (now : Nat) (st : BI) (req : http_req) (res : http_res) :
    (enqueue_step1 now st req res).1.queues = st.queues := by
  unfold enqueue_step1
  cases regFind req.start_ts st.req_res_map <;> rfl

theorem queuePush_getD_self {qid : Nat} {qs : List (List Nat)} (h : qid < qs.length)
    (rid : Nat) :
    (queuePush qid rid qs).getD qid [] = qs.getD qid [] ++ [rid] := by
  induction qs generalizing qid with
  | nil => simp at h
  | cons q rest ih =>
    cases qid with
    | zero => simp [queuePush]
    | succ k =>
      have h2 : k < rest.length := by simpa using h
      have := ih h2
      simp only [queuePush, List.getD_cons_succ, List.set] at this ⊢
      exact this

/-- For a last chunk whose collection resolution succeeds, enqueue_main
succeeds and pushes the req_id onto the shard queue
hash_wy(coll_name) % num_threads, leaving the other queues as they were. -/
theorem enqueue_main_last_queues (gr : Nat → Option route_path) (now : Nat)
    (st : BI) (req : http_req) (res : http_res) (coll : String) (req2 : http_req)
    (hlast : req.last_chunk_aggregate = true)
    (hres : get_collection_name gr { req with body := "" } = some (coll, req2)) :
    (enqueue_main gr now st req res).map (fun p => p.1.queues) =
      some (queuePush (enqueue_queue_id coll st.num_threads) req.start_ts st.queues) := by
  have hres' : get_collection_name gr
      { start_ts := req.start_ts, route_hash := req.route_hash,
        params_collection := req.params_collection, body := "",
        last_chunk_aggregate := true, log_index := req.log_index,
        has_proceed := req.has_proceed } = some (coll, req2) := by
    rw [← hlast]
    exact hres
  by_cases hseq : (enqueue_step1 now st req res).2 = 0 <;>
    simp [enqueue_main, hlast, hres', hseq, enqueue_step1_num_threads, enqueue_step1_queues]

/- ----------------------------------------------------------------- -/
/- Claim theorems.                                                   -/
/- ----------------------------------------------------------------- -/

/-- C9: when the request's collection parameter is empty,
get_collection_name discards get_route's boolean result and unconditionally
dereferences the returned route pointer; with no route in the table for the
request's route_hash this is the undefined-behavior path (modelled as none),
and whenever a route does exist the function is defined, so under that
precondition the no-route error branch is unreachable. -/
theorem c9_get_collection_name_deref (gr : Nat → Option route_path) (req : http_req) :
    (req.params_collection = "" → gr req.route_hash = none →
      get_collection_name gr req = none) ∧
    ((gr req.route_hash).isSome = true → (get_collection_name gr req).isSome = true) := by
  constructor
  · intro h1 h2
    simp [get_collection_name, h1, h2]
  · intro h
    rcases Option.isSome_iff_exists.mp h with ⟨rp, hrp⟩
    by_cases hp : req.params_collection = ""
    · cases hb : rp.is_post_create_collection with
      | true =>
        cases hn : parse_body_name req.body with
        | none => simp [get_collection_name, hp, hrp, hb, hn]
        | some name => simp [get_collection_name, hp, hrp, hb, hn]
      | false => simp [get_collection_name, hp, hrp, hb]
    · simp [get_collection_name, hp]

/-- Witness for C9 at a concrete route table and request. -/
theorem c9_witness :
    get_collection_name (fun _ => none) http_req_init = none ∧
    (get_collection_name (fun _ => some ⟨false, false, fun r s => (r, s)⟩)
      http_req_init).isSome = true :=
  ⟨(c9_get_collection_name_deref (fun _ => none) http_req_init).1 rfl rfl,
   (c9_get_collection_name_deref (fun _ => some ⟨false, false, fun r s => (r, s)⟩)
      http_req_init).2 rfl⟩

/-- C6: for a completed (last-chunk) request whose collection name resolves
to the empty string, the shard index computed on enqueue is
hash_wy("") % num_threads = 0 for any configured worker count, and the
request id is pushed onto shard queue 0. -/
theorem c6_empty_collection_shard0 (gr : Nat → Option route_path) (now : Nat)
    (st : BI) (req : http_req) (res : http_res) (req2 : http_req)
    (hlast : req.last_chunk_aggregate = true)
    (hres : get_collection_name gr { req with body := "" } = some ("", req2))
    (hq : 0 < st.queues.length) :
    enqueue_queue_id "" st.num_threads = 0 ∧
    ∃ qs, (enqueue_main gr now st req res).map (fun p => p.1.queues) = some qs ∧
      req.start_ts ∈ qs.getD 0 [] := by
  have hid : enqueue_queue_id "" st.num_threads = 0 := by
    simp [enqueue_queue_id, hash_wy]
  refine ⟨hid, ?_⟩
  have hq2 := enqueue_main_last_queues gr now st req res "" req2 hlast hres
  rw [hid] at hq2
  refine ⟨_, hq2, ?_⟩
  rw [queuePush_getD_self hq req.start_ts]
  simp

/-- Witness for C6: a three-worker instance, a route that is not the
create-collection handler, and a request with no collection parameter. -/
theorem c6_witness :
    enqueue_queue_id "" 3 = 0 ∧
    ∃ qs, (enqueue_main (fun _ => some ⟨false, false, fun r s => (r, s)⟩) 0
        ⟨3, [], [[], [], []], 0, []⟩ (mkChunkReq 5 1 "" "x" true 0)
        ⟨true, 200⟩).map (fun p => p.1.queues) = some qs ∧
      5 ∈ qs.getD 0 [] :=
  c6_empty_collection_shard0 (fun _ => some ⟨false, false, fun r s => (r, s)⟩) 0
    ⟨3, [], [[], [], []], 0, []⟩ (mkChunkReq 5 1 "" "x" true 0) ⟨true, 200⟩
    (mkChunkReq 5 1 "" "" true 0) rfl rfl (by decide)

/-- C1: for a completed request whose route_hash has no route in the route
table, the worker sets the response to a 404-equivalent, dispatches exactly
one STREAM_RESPONSE if and only if the request is live, applies no chunk
(queued_writes is untouched by the drain), and afterwards still range-deletes
every persisted chunk of the req_id and erases its Registry entry. -/
theorem c1_unknown_route (gr : Nat → Option route_path) (quitSig : Nat → Bool)
    (st : BI) (rid : Nat) (rec0 : req_res_t) (v : http_req) (restL : Store)
    (kk : List Nat)
    (hfind : regFind rid st.req_res_map = some rec0)
    (hroute : gr rec0.req.route_hash = none)
    (hscan : storeScan (get_req_prefix_key rid ++ serialize_uint32_t rec0.next_chunk_index)
       st.store = (kk, v) :: restL)
    (hpre : (get_req_prefix_key rid).isPrefixOf kk = true) :
    ∃ st' ds, runRequest gr quitSig st rid = some (st', ds) ∧
      ds.res.status_code = 404 ∧
      ds.msgs = (if rec0.res.is_alive then [Msg.streamResponse rid 404] else []) ∧
      st'.queued_writes = st.queued_writes ∧
      regFind rid st'.req_res_map = none ∧
      (∀ s, s < 2 ^ 32 → storeLookup (chunk_key rid s) st'.store = none) := by
  unfold runRequest
  rw [hfind]
  simp only [hroute, hscan, drainLoop, hpre, if_true, Option.some.injEq]
  refine ⟨_, _, rfl, ?_, ?_, ?_, ?_, ?_⟩
  · simp [set_404]
  · cases hlv : rec0.res.is_alive <;> simp [set_404, hlv]
  · simp
  · exact regFind_regErase_self rid st.req_res_map
  · intro s hs
    exact storeLookup_deleteRange_in (chunk_key_in_delete_range rid hs)

/-- Witness for C1: a one-chunk live request whose route hash resolves to no
route. -/
theorem c1_witness :
    ∃ st' ds, runRequest (fun _ => none) (fun _ => false)
        ⟨1, [(7, ⟨"", mkChunkReq 7 9 "b" "" true 0, ⟨true, 200⟩, 0, 1, 0, true⟩)], [[]], 5,
         [(chunk_key 7 0, mkChunkReq 7 9 "b" "x" true 0)]⟩ 7 = some (st', ds) ∧
      ds.res.status_code = 404 ∧
      ds.msgs = (if (⟨true, 200⟩ : http_res).is_alive then [Msg.streamResponse 7 404] else []) ∧
      st'.queued_writes = (5 : Int) ∧
      regFind 7 st'.req_res_map = none ∧
      (∀ s, s < 2 ^ 32 → storeLookup (chunk_key 7 s) st'.store = none) :=
  c1_unknown_route (fun _ => none) (fun _ => false)
    ⟨1, [(7, ⟨"", mkChunkReq 7 9 "b" "" true 0, ⟨true, 200⟩, 0, 1, 0, true⟩)], [[]], 5,
     [(chunk_key 7 0, mkChunkReq 7 9 "b" "x" true 0)]⟩ 7
    ⟨"", mkChunkReq 7 9 "b" "" true 0, ⟨true, 200⟩, 0, 1, 0, true⟩
    (mkChunkReq 7 9 "b" "x" true 0) [] (chunk_key 7 0)
    rfl rfl (by decide) (by decide)

theorem storeLookup_mem {k : List Nat} {s : Store} {v : http_req}
    (h : storeLookup k s = some v) : (k, v) ∈ s := by
  induction s with
  | nil => simp [storeLookup] at h
  | cons kv rest ih =>
    obtain ⟨k1, v1⟩ := kv
    by_cases he : k1 = k
    · subst he
      have : v1 = v := by simpa [storeLookup] using h
      subst this
      exact List.mem_cons_self _ _
    · have h2 : storeLookup k rest = some v := by simpa [storeLookup, he] using h
      exact List.mem_cons_of_mem _ (ih h2)

/-- C5: a chunk's key is REQ_LOG_PREFIX || be64(req_id) || "_" || be32(seq)
(the chunk_key definition), and the big-endian encoding is monotone: chunks
i < j of one req_id have lexicographically ordered keys.  Hence on the
key-sorted store the prefix scan that starts at chunk_key(req_id, n) is
key-ascending and contains every persisted chunk with sequence at least n,
so the worker, which consumes the scan front to back, applies the remaining
chunks in ascending chunk_sequence order. -/
theorem c5_chunk_key_order (r i j n : Nat) (st : Store)
    (hij : i < j) (hj : j < 2 ^ 32)
    (hsorted : st.Pairwise (fun a b => keyLt a.1 b.1 = true)) :
    keyLt (chunk_key r i) (chunk_key r j) = true ∧
    (storeScan (chunk_key r n) st).Pairwise (fun a b => keyLt a.1 b.1 = true) ∧
    (∀ s v, n ≤ s → s < 2 ^ 32 → storeLookup (chunk_key r s) st = some v →
      (chunk_key r s, v) ∈ storeScan (chunk_key r n) st) := by
  refine ⟨chunk_key_lt r hij hj, ?_, ?_⟩
  · exact hsorted.sublist (List.filter_sublist st)
  · intro s v hns hs hlook
    exact List.mem_filter.mpr ⟨storeLookup_mem hlook, chunk_key_le r hns hs⟩

/-- Witness for C5: a two-chunk store for req_id 9, sorted, scanned from
sequence 0. -/
theorem c5_witness :
    keyLt (chunk_key 9 0) (chunk_key 9 1) = true ∧
    (storeScan (chunk_key 9 0)
        [(chunk_key 9 0, http_req_init), (chunk_key 9 1, http_req_init)]).Pairwise
      (fun a b => keyLt a.1 b.1 = true) ∧
    (∀ s v, 0 ≤ s → s < 2 ^ 32 →
      storeLookup (chunk_key 9 s)
        [(chunk_key 9 0, http_req_init), (chunk_key 9 1, http_req_init)] = some v →
      (chunk_key 9 s, v) ∈ storeScan (chunk_key 9 0)
        [(chunk_key 9 0, http_req_init), (chunk_key 9 1, http_req_init)]) :=
  c5_chunk_key_order 9 0 1 0
    [(chunk_key 9 0, http_req_init), (chunk_key 9 1, http_req_init)]
    (by decide) (by decide)
    (by simp [List.pairwise_cons]; decide)

/-- Counterexample for C2: req_id 7 has three persisted chunks and a found
route; quit is observed after the first chunk is applied.  The claim says the
Registry record (with next_chunk_index = 1) and the not-yet-applied chunks 1
and 2 remain; in the code the worker, after breaking out of the scan, still
unconditionally range-deletes the whole chunk range and erases the record, so
the record is gone and chunk 1 is gone. -/
theorem c2_counterexample :
    (runRequest (fun h => if h == 5 then some ⟨false, false, fun r s => (r, s)⟩ else none)
        (fun c => c == 1)
        ⟨1, [(7, ⟨"", mkChunkReq 7 5 "b" "" true 2, ⟨true, 200⟩, 0, 3, 0, true⟩)], [[]], 3,
         [(chunk_key 7 0, mkChunkReq 7 5 "b" "x0" false 0),
          (chunk_key 7 1, mkChunkReq 7 5 "b" "x1" false 1),
          (chunk_key 7 2, mkChunkReq 7 5 "b" "x2" true 2)]⟩ 7).map
      (fun p => (regFind 7 p.1.req_res_map, storeLookup (chunk_key 7 1) p.1.store,
                 p.2.next_chunk_index, p.2.processed)) =
    some (none, none, 1, 1) := by
  decide

/-- C2 amended: if the quit flag is signaled after m chunks, the worker stops
mid-scan having applied exactly m chunks (next_chunk_index advanced by m,
queued_writes decreased by m, nothing beyond m applied), but it then still
range-deletes all persisted chunks of the req_id and erases the Registry
record, so the record and the unapplied chunks do not survive the interrupted
drain; they are preserved only in a snapshot taken before the erase. -/
theorem c2_amended_quit_midscan (gr : Nat → Option route_path) (st : BI)
    (rid m : Nat) (rec0 : req_res_t) (rpath : route_path) (L : Store)
    (hfind : regFind rid st.req_res_map = some rec0)
    (hroute : gr rec0.req.route_hash = some rpath)
    (hscan : storeScan (get_req_prefix_key rid ++ serialize_uint32_t rec0.next_chunk_index)
       st.store = L)
    (hpre : ∀ kv ∈ L, (get_req_prefix_key rid).isPrefixOf kv.1 = true)
    (hm : 0 < m) (hlen : m ≤ L.length) :
    ∃ st' ds, runRequest gr (fun c => c == m) st rid = some (st', ds) ∧
      ds.processed = m ∧
      ds.next_chunk_index = rec0.next_chunk_index + m ∧
      st'.queued_writes = st.queued_writes - m ∧
      regFind rid st'.req_res_map = none ∧
      (∀ s, s < 2 ^ 32 → storeLookup (chunk_key rid s) st'.store = none) := by
  unfold runRequest
  rw [hfind]
  simp only [hroute, hscan]
  refine ⟨_, _, rfl, ?_, ?_, ?_, ?_, ?_⟩
  · exact (drainLoop_quit_at rpath rec0.res.is_alive (get_req_prefix_key rid) rid m L
      _ m hm (by simp) hlen hpre).1
  · exact (drainLoop_quit_at rpath rec0.res.is_alive (get_req_prefix_key rid) rid m L
      _ m hm (by simp) hlen hpre).2.1
  · exact (drainLoop_quit_at rpath rec0.res.is_alive (get_req_prefix_key rid) rid m L
      _ m hm (by simp) hlen hpre).2.2
  · exact regFind_regErase_self rid st.req_res_map
  · intro s hs
    exact storeLookup_deleteRange_in (chunk_key_in_delete_range rid hs)

/-- Witness for the amended C2: the counterexample scenario, through the
general theorem. -/
theorem c2_amended_witness :
    ∃ st' ds, runRequest (fun h => if h == 5 then some ⟨false, false, fun r s => (r, s)⟩ else none)
        (fun c => c == 1)
        ⟨1, [(7, ⟨"", mkChunkReq 7 5 "b" "" true 2, ⟨true, 200⟩, 0, 3, 0, true⟩)], [[]], 3,
         [(chunk_key 7 0, mkChunkReq 7 5 "b" "x0" false 0),
          (chunk_key 7 1, mkChunkReq 7 5 "b" "x1" false 1),
          (chunk_key 7 2, mkChunkReq 7 5 "b" "x2" true 2)]⟩ 7 = some (st', ds) ∧
      ds.processed = 1 ∧
      ds.next_chunk_index = 0 + 1 ∧
      st'.queued_writes = (3 : Int) - (1 : Nat) ∧
      regFind 7 st'.req_res_map = none ∧
      (∀ s, s < 2 ^ 32 → storeLookup (chunk_key 7 s) st'.store = none) :=
  c2_amended_quit_midscan
    (fun h => if h == 5 then some ⟨false, false, fun r s => (r, s)⟩ else none)
    ⟨1, [(7, ⟨"", mkChunkReq 7 5 "b" "" true 2, ⟨true, 200⟩, 0, 3, 0, true⟩)], [[]], 3,
     [(chunk_key 7 0, mkChunkReq 7 5 "b" "x0" false 0),
      (chunk_key 7 1, mkChunkReq 7 5 "b" "x1" false 1),
      (chunk_key 7 2, mkChunkReq 7 5 "b" "x2" true 2)]⟩ 7 1
    ⟨"", mkChunkReq 7 5 "b" "" true 2, ⟨true, 200⟩, 0, 3, 0, true⟩
    ⟨false, false, fun r s => (r, s)⟩
    [(chunk_key 7 0, mkChunkReq 7 5 "b" "x0" false 0),
     (chunk_key 7 1, mkChunkReq 7 5 "b" "x1" false 1),
     (chunk_key 7 2, mkChunkReq 7 5 "b" "x2" true 2)]
    rfl rfl (by decide) (by decide) (by decide) (by decide)

theorem sub64_eq {a b : Nat} (hb : b ≤ a) (ha : a < 2 ^ 64) :
    sub64 a b = a - b := by
  unfold sub64
  omega

theorem mem_eq_of_nodup_keys {m : Registry} (hnd : (m.map Prod.fst).Nodup)
    {a b : Nat × req_res_t} (ha : a ∈ m) (hb : b ∈ m) (hk : a.1 = b.1) : a = b := by
  induction m with
  | nil => simp at ha
  | cons kv rest ih =>
    simp only [List.map_cons, List.nodup_cons] at hnd
    rcases List.mem_cons.mp ha with ha1 | ha2 <;>
      rcases List.mem_cons.mp hb with hb1 | hb2
    · rw [ha1, hb1]
    · exfalso
      apply hnd.1
      rw [ha1] at hk
      rw [hk]
      exact List.mem_map.mpr ⟨b, hb2, rfl⟩
    · exfalso
      apply hnd.1
      rw [hb1] at hk
      rw [← hk]
      exact List.mem_map.mpr ⟨a, ha2, rfl⟩
    · exact ih hnd.2 ha2 hb2

theorem gc_fold_none (now : Nat) (k : List Nat) :
    ∀ (L : Registry) (s0 : Store), storeLookup k s0 = none →
      storeLookup k (L.foldl (fun s kv =>
        if gcExpired now kv.2 then
          deleteRange (get_req_prefix_key kv.2.req.start_ts)
            (get_req_prefix_key kv.2.req.start_ts ++ serialize_uint32_t (2 ^ 32 - 1)) s
        else s) s0) = none := by
  intro L
  induction L with
  | nil => intro s0 h; exact h
  | cons kv rest ih =>
    intro s0 h
    simp only [List.foldl_cons]
    apply ih
    cases hx : gcExpired now kv.2 with
    | true => simpa [hx] using storeLookup_none_deleteRange h
    | false => simpa [hx] using h

theorem gc_fold_preserve (now rid s : Nat) (hrid : rid < 2 ^ 64) (_hs : s < 2 ^ 32) :
    ∀ (L : Registry) (s0 : Store),
      (∀ kv ∈ L, kv.2.req.start_ts < 2 ^ 64 ∧
        (gcExpired now kv.2 = true → kv.2.req.start_ts ≠ rid)) →
      storeLookup (chunk_key rid s) (L.foldl (fun s' kv =>
        if gcExpired now kv.2 then
          deleteRange (get_req_prefix_key kv.2.req.start_ts)
            (get_req_prefix_key kv.2.req.start_ts ++ serialize_uint32_t (2 ^ 32 - 1)) s'
        else s') s0) = storeLookup (chunk_key rid s) s0 := by
  intro L
  induction L with
  | nil => intro s0 h; rfl
  | cons kv rest ih =>
    intro s0 h
    have hh := h kv (by simp)
    simp only [List.foldl_cons]
    rw [ih _ (fun kv2 hm => h kv2 (List.mem_cons_of_mem _ hm))]
    cases hx : gcExpired now kv.2 with
    | true =>
      simp only [hx, if_true]
      exact storeLookup_deleteRange_out
        (chunk_key_notin_delete_range (hh.2 hx) hh.1 hrid)
    | false => simp [hx]

theorem gc_fold_expired (now rid s : Nat) (rec0 : req_res_t) (hs : s < 2 ^ 32) :
    ∀ (L : Registry) (s0 : Store),
      (∀ kv ∈ L, kv.2.req.start_ts = kv.1) →
      ((L.map Prod.fst).Nodup) →
      (rid, rec0) ∈ L → gcExpired now rec0 = true →
      storeLookup (chunk_key rid s) (L.foldl (fun s' kv =>
        if gcExpired now kv.2 then
          deleteRange (get_req_prefix_key kv.2.req.start_ts)
            (get_req_prefix_key kv.2.req.start_ts ++ serialize_uint32_t (2 ^ 32 - 1)) s'
        else s') s0) = none := by
  intro L
  induction L with
  | nil => intro s0 _ _ hmem _; simp at hmem
  | cons kv rest ih =>
    intro s0 hids hnd hmem hexp
    simp only [List.map_cons, List.nodup_cons] at hnd
    simp only [List.foldl_cons]
    rcases List.mem_cons.mp hmem with hh | hh
    · subst hh
      have hst : rec0.req.start_ts = rid := by
        simpa using hids (rid, rec0) (by simp)
      simp only [hexp, if_true]
      apply gc_fold_none
      rw [hst]
      exact storeLookup_deleteRange_in (chunk_key_in_delete_range rid hs)
    · exact ih _ (fun kv2 hm => hids kv2 (List.mem_cons_of_mem _ hm)) hnd.2 hh hexp

/-- C3: on a due GC tick, every Registry record whose age
now - batch_begin_ts exceeds GC_PRUNE_MAX_SECONDS has its whole chunk-key
range deleted from the store and its record erased, unconditionally (the scan
tests only the age: neither is_complete nor queue membership is consulted);
every record whose age does not exceed the threshold keeps its Registry entry
and its persisted chunks untouched. -/
theorem c3_gc_prune (now : Nat) (st : BI) (rid : Nat) (rec0 : req_res_t)
    (hnd : (st.req_res_map.map Prod.fst).Nodup)
    (hids : ∀ kv ∈ st.req_res_map,
      kv.2.req.start_ts = kv.1 ∧ kv.1 < 2 ^ 64 ∧ kv.2.batch_begin_ts ≤ now)
    (hnow : now < 2 ^ 64)
    (hfind : regFind rid st.req_res_map = some rec0) :
    (GC_PRUNE_MAX_SECONDS < now - rec0.batch_begin_ts →
      regFind rid (gcTick now st).req_res_map = none ∧
      (∀ s, s < 2 ^ 32 → storeLookup (chunk_key rid s) (gcTick now st).store = none)) ∧
    (¬ GC_PRUNE_MAX_SECONDS < now - rec0.batch_begin_ts →
      regFind rid (gcTick now st).req_res_map = some rec0 ∧
      (∀ s, s < 2 ^ 32 → storeLookup (chunk_key rid s) (gcTick now st).store =
        storeLookup (chunk_key rid s) st.store)) := by
  have hmem : (rid, rec0) ∈ st.req_res_map := regFind_mem hfind
  have hrec := hids (rid, rec0) hmem
  have hexp_iff : gcExpired now rec0 =
      decide (GC_PRUNE_MAX_SECONDS < now - rec0.batch_begin_ts) := by
    unfold gcExpired
    rw [sub64_eq hrec.2.2 hnow]
  have hridlt : rid < 2 ^ 64 := hrec.2.1
  constructor
  · intro hcond
    have hexp : gcExpired now rec0 = true := by
      rw [hexp_iff]
      simpa using hcond
    constructor
    · apply regFind_filter_of_false hnd hfind
      simp [hexp]
    · intro s hs
      exact gc_fold_expired now rid s rec0 hs st.req_res_map st.store
        (fun kv hm => (hids kv hm).1) hnd hmem hexp
  · intro hcond
    have hexp : gcExpired now rec0 = false := by
      rw [hexp_iff]
      simpa using hcond
    constructor
    · apply regFind_filter_of_true hfind
      simp [hexp]
    · intro s hs
      apply gc_fold_preserve now rid s hridlt hs
      intro kv hm
      constructor
      · rw [(hids kv hm).1]
        exact (hids kv hm).2.1
      · intro hx hst
        have hk1 : kv.1 = rid := by
          rw [← (hids kv hm).1, hst]
        have hkv : kv = (rid, rec0) := mem_eq_of_nodup_keys hnd hm hmem hk1
        rw [hkv] at hx
        have hx2 : gcExpired now rec0 = true := hx
        rw [hexp] at hx2
        exact absurd hx2 (by simp)

/-- Witness for C3: two records, one aged past the horizon, one fresh; one
GC tick prunes exactly the old one. -/
theorem c3_witness :
    (GC_PRUNE_MAX_SECONDS < 5000 - 100 →
      regFind 7 (gcTick 5000
        ⟨1, [(7, ⟨"", mkChunkReq 7 5 "b" "" true 0, ⟨true, 200⟩, 100, 1, 0, false⟩)], [[]], 1,
         [(chunk_key 7 0, mkChunkReq 7 5 "b" "x" true 0)]⟩).req_res_map = none ∧
      (∀ s, s < 2 ^ 32 → storeLookup (chunk_key 7 s) (gcTick 5000
        ⟨1, [(7, ⟨"", mkChunkReq 7 5 "b" "" true 0, ⟨true, 200⟩, 100, 1, 0, false⟩)], [[]], 1,
         [(chunk_key 7 0, mkChunkReq 7 5 "b" "x" true 0)]⟩).store = none)) ∧
    (¬ GC_PRUNE_MAX_SECONDS < 5000 - 100 →
      regFind 7 (gcTick 5000
        ⟨1, [(7, ⟨"", mkChunkReq 7 5 "b" "" true 0, ⟨true, 200⟩, 100, 1, 0, false⟩)], [[]], 1,
         [(chunk_key 7 0, mkChunkReq 7 5 "b" "x" true 0)]⟩).req_res_map =
        some ⟨"", mkChunkReq 7 5 "b" "" true 0, ⟨true, 200⟩, 100, 1, 0, false⟩ ∧
      (∀ s, s < 2 ^ 32 → storeLookup (chunk_key 7 s) (gcTick 5000
        ⟨1, [(7, ⟨"", mkChunkReq 7 5 "b" "" true 0, ⟨true, 200⟩, 100, 1, 0, false⟩)], [[]], 1,
         [(chunk_key 7 0, mkChunkReq 7 5 "b" "x" true 0)]⟩).store =
        storeLookup (chunk_key 7 s)
         [(chunk_key 7 0, mkChunkReq 7 5 "b" "x" true 0)])) :=
  c3_gc_prune 5000
    ⟨1, [(7, ⟨"", mkChunkReq 7 5 "b" "" true 0, ⟨true, 200⟩, 100, 1, 0, false⟩)], [[]], 1,
     [(chunk_key 7 0, mkChunkReq 7 5 "b" "x" true 0)]⟩ 7
    ⟨"", mkChunkReq 7 5 "b" "" true 0, ⟨true, 200⟩, 100, 1, 0, false⟩
    (by decide) (by decide) (by decide) rfl

theorem legacyWaitLoop_some {obs : Nat → Registry} :
    ∀ {fuel i slept j sl}, legacyWaitLoop obs fuel i slept = some (j, sl) →
      (obs j).isEmpty = true ∧ i ≤ j ∧
      (∀ k, i ≤ k → k < j → (obs k).isEmpty = false) ∧
      sl = slept + (j - i) * ENQUEUE_SLEEP_MS := by
  intro fuel
  induction fuel with
  | zero =>
    intro i slept j sl h
    simp [legacyWaitLoop] at h
  | succ fuel ih =>
    intro i slept j sl h
    unfold legacyWaitLoop at h
    cases hx : (obs i).isEmpty with
    | true =>
      rw [hx] at h
      simp only [if_true, Option.some.injEq, Prod.mk.injEq] at h
      obtain ⟨rfl, rfl⟩ := h
      refine ⟨hx, Nat.le_refl _, ?_, by simp⟩
      intro k hk1 hk2
      omega
    | false =>
      rw [hx] at h
      simp only [Bool.false_eq_true, if_false] at h
      obtain ⟨h1, h2, h3, h4⟩ := ih h
      refine ⟨h1, by omega, ?_, ?_⟩
      · intro k hk1 hk2
        rcases Nat.eq_or_lt_of_le hk1 with rfl | hk3
        · exact hx
        · exact h3 k hk3 hk2
      · rw [h4]
        unfold ENQUEUE_SLEEP_MS
        omega

theorem legacyWaitLoop_none {obs : Nat → Registry} :
    ∀ {fuel i slept}, legacyWaitLoop obs fuel i slept = none →
      ∀ k, i ≤ k → k < i + fuel → (obs k).isEmpty = false := by
  intro fuel
  induction fuel with
  | zero =>
    intro i slept h k hk1 hk2
    omega
  | succ fuel ih =>
    intro i slept h k hk1 hk2
    unfold legacyWaitLoop at h
    cases hx : (obs i).isEmpty with
    | true => rw [hx] at h; simp at h
    | false =>
      rw [hx] at h
      simp only [Bool.false_eq_true, if_false] at h
      rcases Nat.eq_or_lt_of_le hk1 with rfl | hk3
      · exact hx
      · exact ih h k hk3 (by omega)

/-- After a successful last-chunk enqueue_main, the Registry record of the
request exists and is marked complete, and the returned is_old flag is
req.start_ts == 0. -/
theorem enqueue_main_is_complete (gr : Nat → Option route_path) (now : Nat)
    (st : BI) (req : http_req) (res : http_res)
    (hlast : req.last_chunk_aggregate = true)
    (hsome : (get_collection_name gr { req with body := "" }).isSome = true) :
    ∃ st1 f2, enqueue_main gr now st req res = some (st1, req.start_ts == 0, f2) ∧
      ∃ rec, regFind req.start_ts st1.req_res_map = some rec ∧ rec.is_complete = true := by
  obtain ⟨⟨coll, req2⟩, hres⟩ := Option.isSome_iff_exists.mp hsome
  have hres' : get_collection_name gr
      { start_ts := req.start_ts, route_hash := req.route_hash,
        params_collection := req.params_collection, body := "",
        last_chunk_aggregate := true, log_index := req.log_index,
        has_proceed := req.has_proceed } = some (coll, req2) := by
    rw [← hlast]
    exact hres
  have hpres : ∃ r0, regFind req.start_ts (enqueue_step1 now st req res).1.req_res_map
      = some r0 := by
    unfold enqueue_step1
    cases hf : regFind req.start_ts st.req_res_map with
    | none =>
      refine ⟨⟨"", req, res, now, 1, 0, false⟩, ?_⟩
      show regFind req.start_ts
        (st.req_res_map ++ [(req.start_ts, ⟨"", req, res, now, 1, 0, false⟩)]) = _
      rw [regFind_append_right _ hf]
      simp [regFind]
    | some r => exact ⟨_, regFind_regUpdate_self _ hf⟩
  obtain ⟨r0, hr0⟩ := hpres
  by_cases hseq : (enqueue_step1 now st req res).2 = 0 <;>
    simp only [enqueue_main, hlast, hres', hseq, if_true, Bool.false_eq_true, if_false,
      ite_true, ite_false, Option.some.injEq]
  · refine ⟨_, _, rfl, ?_⟩
    have h1 := regFind_regUpdate_self
      (fun r => { r with req := { r.req with body := "" } }) hr0
    have h2 := regFind_regUpdate_self (fun r => { r with req := req2 }) h1
    have h3 := regFind_regUpdate_self (fun r => { r with is_complete := true }) h2
    exact ⟨_, h3, rfl⟩
  · refine ⟨_, _, rfl, ?_⟩
    have h3 := regFind_regUpdate_self (fun r => { r with is_complete := true }) hr0
    exact ⟨_, h3, rfl⟩

/-- C7: for an enqueue call with req_id 0 whose chunk is the last of its
batch, is_complete is set before the wait, and the enqueue path then blocks
in the legacy-serialized wait, polling every ENQUEUE_SLEEP_MS = 10 ms: it
leaves the wait (the done outcome, after which alone REQUEST_PROCEED can be
dispatched) only at the first poll observing an empty Registry, every earlier
poll having observed a non-empty one; if no poll within the fuel bound
observes an empty Registry the call remains blocked and dispatches no
message at all. -/
theorem c7_legacy_serialized_wait (gr : Nat → Option route_path) (now : Nat)
    (obs : Nat → Registry) (fuel : Nat) (st : BI) (req : http_req) (res : http_res)
    (h0 : req.start_ts = 0) (hlast : req.last_chunk_aggregate = true)
    (hsome : (get_collection_name gr { req with body := "" }).isSome = true) :
    ENQUEUE_SLEEP_MS = 10 ∧
    (∀ st1 msgs polls slept,
      enqueue gr now obs fuel st req res = .done st1 msgs polls slept →
        (obs polls).isEmpty = true ∧
        (∀ j, j < polls → (obs j).isEmpty = false) ∧
        slept = polls * ENQUEUE_SLEEP_MS ∧
        (∃ rec, regFind 0 st1.req_res_map = some rec ∧ rec.is_complete = true)) ∧
    (∀ st1, enqueue gr now obs fuel st req res = .blocked st1 →
      (∀ j, j < fuel → (obs j).isEmpty = false) ∧
      (∃ rec, regFind 0 st1.req_res_map = some rec ∧ rec.is_complete = true)) := by
  obtain ⟨stM, f2, hmain, rec, hrec, hcomp⟩ :=
    enqueue_main_is_complete gr now st req res hlast hsome
  have hrec0 : regFind 0 stM.req_res_map = some rec := by
    rw [← h0]
    exact hrec
  have hcond : (req.last_chunk_aggregate && (req.start_ts == 0)) = true := by
    simp [hlast, h0]
  refine ⟨rfl, ?_, ?_⟩
  · intro st1 msgs polls slept hdone
    unfold enqueue at hdone
    rw [hmain] at hdone
    simp only [hcond, if_true] at hdone
    cases hw : legacyWaitLoop obs fuel 0 0 with
    | none =>
      rw [hw] at hdone
      simp at hdone
    | some p =>
      obtain ⟨j, sl⟩ := p
      rw [hw] at hdone
      simp only [EnqResult.done.injEq] at hdone
      obtain ⟨h1, h2, h3, h4⟩ := hdone
      subst h1
      subst h3
      subst h4
      have hs := legacyWaitLoop_some hw
      refine ⟨hs.1, ?_, ?_, ⟨rec, hrec0, hcomp⟩⟩
      · intro k hk
        exact hs.2.2.1 k (Nat.zero_le _) hk
      · rw [hs.2.2.2]
        simp
  · intro st1 hblk
    unfold enqueue at hblk
    rw [hmain] at hblk
    simp only [hcond, if_true] at hblk
    cases hw : legacyWaitLoop obs fuel 0 0 with
    | some p =>
      rw [hw] at hblk
      simp at hblk
    | none =>
      rw [hw] at hblk
      simp only [EnqResult.blocked.injEq] at hblk
      subst hblk
      refine ⟨?_, ⟨rec, hrec0, hcomp⟩⟩
      intro j hj
      exact legacyWaitLoop_none hw j (Nat.zero_le _) (by omega)

/-- Witness for C7: an enqueue of the last chunk of req_id 0 whose wait
observes a non-empty Registry twice and an empty one at poll 2, so the call
returns after two 10 ms sleeps. -/
theorem c7_witness :
    ∃ st1 msgs,
      enqueue (fun _ => some ⟨false, false, fun r s => (r, s)⟩) 0
        (fun i => if i == 2 then ([] : Registry)
                  else [(1, ⟨"", http_req_init, http_res_init, 0, 1, 0, false⟩)]) 5
        ⟨1, [], [[]], 0, []⟩ (mkChunkReq 0 1 "c" "x" true 0) ⟨true, 200⟩ =
        .done st1 msgs 2 20 ∧
      ((fun i => if i == 2 then ([] : Registry)
                 else [(1, ⟨"", http_req_init, http_res_init, 0, 1, 0, false⟩)]) 2).isEmpty
        = true ∧
      (∀ j, j < 2 →
        ((fun i => if i == 2 then ([] : Registry)
                   else [(1, ⟨"", http_req_init, http_res_init, 0, 1, 0, false⟩)]) j).isEmpty
          = false) ∧
      (20 : Nat) = 2 * ENQUEUE_SLEEP_MS ∧
      (∃ rec, regFind 0 st1.req_res_map = some rec ∧ rec.is_complete = true) := by
  refine ⟨_, _, rfl, ?_⟩
  exact (c7_legacy_serialized_wait (fun _ => some ⟨false, false, fun r s => (r, s)⟩) 0
    (fun i => if i == 2 then ([] : Registry)
              else [(1, ⟨"", http_req_init, http_res_init, 0, 1, 0, false⟩)]) 5
    ⟨1, [], [[]], 0, []⟩ (mkChunkReq 0 1 "c" "x" true 0) ⟨true, 200⟩
    rfl rfl (by decide)).2.1 _ _ _ _ rfl

theorem keyLt_trans : ∀ {a b c : List Nat}, keyLt a b = true → keyLt b c = true →
    keyLt a c = true := by
  intro a
  induction a with
  | nil =>
    intro b c h1 h2
    cases b with
    | nil => simp [keyLt] at h1
    | cons y ys =>
      cases c with
      | nil => simp [keyLt] at h2
      | cons z zs => rfl
  | cons x xs ih =>
    intro b c h1 h2
    cases b with
    | nil => simp [keyLt] at h1
    | cons y ys =>
      cases c with
      | nil => simp [keyLt] at h2
      | cons z zs =>
        simp only [keyLt, Bool.or_eq_true, Bool.and_eq_true, decide_eq_true_eq] at h1 h2 ⊢
        rcases h1 with h1 | ⟨h1a, h1b⟩ <;> rcases h2 with h2 | ⟨h2a, h2b⟩
        · exact Or.inl (by omega)
        · exact Or.inl (by omega)
        · exact Or.inl (by omega)
        · exact Or.inr ⟨by omega, ih h1b h2b⟩

theorem get_collection_name_empty_body (gr : Nat → Option route_path)
    (req : http_req) (hb : req.body = "")
    (hroute : (gr req.route_hash).isSome = true) :
    ∃ coll, get_collection_name gr req = some (coll, req) := by
  by_cases hp : req.params_collection = ""
  · obtain ⟨rp, hrp⟩ := Option.isSome_iff_exists.mp hroute
    have hparse : parse_body_name req.body = none := by
      rw [hb]
      rfl
    cases hpost : rp.is_post_create_collection with
    | true => exact ⟨"", by simp [get_collection_name, hp, hrp, hpost, hparse]⟩
    | false => exact ⟨"", by simp [get_collection_name, hp, hrp, hpost]⟩
  · exact ⟨req.params_collection, by simp [get_collection_name, hp]⟩

theorem chunkEntriesFor_length (rid rh : Nat) (pcoll : String) :
    ∀ (L : List String) (i : Nat), (chunkEntriesFor rid rh pcoll L i).length = L.length := by
  intro L
  induction L with
  | nil => intro i; rfl
  | cons b rest ih => intro i; simp [chunkEntriesFor, ih]

theorem chunkEntriesFor_keys (rid rh : Nat) (pcoll : String) :
    ∀ (L : List String) (i : Nat), ∀ kv ∈ chunkEntriesFor rid rh pcoll L i,
      ∃ j, i ≤ j ∧ j < i + L.length ∧ kv.1 = chunk_key rid j := by
  intro L
  induction L with
  | nil => intro i kv hm; simp [chunkEntriesFor] at hm
  | cons b rest ih =>
    intro i kv hm
    rcases List.mem_cons.mp hm with hh | hh
    · exact ⟨i, Nat.le_refl _, by simp, by rw [hh]⟩
    · obtain ⟨j, hj1, hj2, hj3⟩ := ih (i + 1) kv hh
      exact ⟨j, by omega, by simp only [List.length_cons]; omega, hj3⟩

theorem chunkEntriesFor_prefix (rid rh : Nat) (pcoll : String) (L : List String)
    (i : Nat) : ∀ kv ∈ chunkEntriesFor rid rh pcoll L i,
      (get_req_prefix_key rid).isPrefixOf kv.1 = true := by
  intro kv hm
  obtain ⟨j, _, _, hj⟩ := chunkEntriesFor_keys rid rh pcoll L i kv hm
  rw [hj]
  exact chunk_key_isPrefixOf rid j

theorem enqueueChunks_go (gr : Nat → Option route_path) (now rid rh : Nat)
    (pcoll : String) (res0 : http_res) :
    ∀ (L : List String) (i : Nat) (st : BI) (r0 : req_res_t),
      (∀ li, ∃ coll, get_collection_name gr (mkChunkReq rid rh pcoll "" true li) =
        some (coll, mkChunkReq rid rh pcoll "" true li)) →
      L ≠ [] → 0 < i → i + L.length < 2 ^ 32 →
      regFind rid st.req_res_map = some r0 → r0.num_chunks = i →
      (∀ kv ∈ st.store, keyLt kv.1 (chunk_key rid i) = true) →
      ∃ stF, enqueueChunks gr now rid rh pcoll res0 st L i = some stF ∧
        stF.queued_writes = st.queued_writes + ((i + L.length : Nat) : Int) ∧
        stF.store = st.store ++ chunkEntriesFor rid rh pcoll L i ∧
        regFind rid stF.req_res_map =
          some { r0 with num_chunks := i + L.length, is_complete := true } ∧
        stF.num_threads = st.num_threads ∧
        stF.queues.length = st.queues.length := by
  intro L
  induction L with
  | nil =>
    intro i st r0 _ hne
    exact absurd rfl hne
  | cons b rest ih =>
    intro i st r0 hgc _ hi hlen hfind hnum hstore
    have hine : ¬ (i = 0) := by omega
    have hstep : enqueue_step1 now st (mkChunkReq rid rh pcoll b rest.isEmpty i) res0 =
        ({ st with req_res_map :=
            (regUpdate rid
              (fun r => { r with num_chunks := (r.num_chunks + 1) % 2 ^ 32 })
              st.req_res_map) }, i) := by
      unfold enqueue_step1
      simp only [mkChunkReq, hfind, hnum]
    have hins : ∀ v, storeInsert (get_req_prefix_key rid ++ serialize_uint32_t i) v st.store
        = st.store ++ [(get_req_prefix_key rid ++ serialize_uint32_t i, v)] := by
      intro v
      apply storeInsert_append
      simpa only [chunk_key] using hstore
    cases rest with
    | nil =>
      obtain ⟨coll, hcoll⟩ := hgc i
      simp only [mkChunkReq] at hcoll
      simp only [mkChunkReq, List.isEmpty_nil] at hstep
      simp only [enqueueChunks, enqueue_main, hstep, mkChunkReq, hins, hine,
        List.isEmpty_nil, if_true, Bool.false_eq_true, if_false, ite_false, ite_true,
        hcoll, Option.some.injEq]
      refine ⟨_, rfl, ?_, ?_, ?_, ?_, ?_⟩
      · simp
      · simp [chunkEntriesFor, mkChunkReq, chunk_key]
      · have h1 := regFind_regUpdate_self
          (fun r => { r with num_chunks := (r.num_chunks + 1) % 2 ^ 32 }) hfind
        have h2 := regFind_regUpdate_self
          (fun r => { r with is_complete := true }) h1
        rw [h2]
        have hmod : (r0.num_chunks + 1) % 2 ^ 32 = i + 1 := by
          rw [hnum]
          exact Nat.mod_eq_of_lt (by simp at hlen; omega)
        norm_num at hmod
        simp [hmod]
      · simp
      · simp [queuePush]
    | cons b2 rest2 =>
      have h1 := regFind_regUpdate_self
        (fun r => { r with num_chunks := (r.num_chunks + 1) % 2 ^ 32 }) hfind
      have hmod : (r0.num_chunks + 1) % 2 ^ 32 = i + 1 := by
        rw [hnum]
        exact Nat.mod_eq_of_lt (by simp at hlen; omega)
      simp only [mkChunkReq, List.isEmpty_cons] at hstep
      simp only [enqueueChunks, enqueue_main, hstep, mkChunkReq, hins, hine,
        List.isEmpty_cons, if_true, Bool.false_eq_true, if_false, ite_false, ite_true]
      have hlt : keyLt (chunk_key rid i) (chunk_key rid (i + 1)) = true :=
        chunk_key_lt rid (by omega) (by simp at hlen; omega)
      have hstore2 : ∀ kv ∈ (st.store ++ [(get_req_prefix_key rid ++ serialize_uint32_t i,
          mkChunkReq rid rh pcoll b false i)]), keyLt kv.1 (chunk_key rid (i + 1)) = true := by
        intro kv hm
        simp only [List.mem_append, List.mem_singleton] at hm
        rcases hm with hm | hm
        · exact keyLt_trans (hstore kv hm) hlt
        · rw [hm]
          simpa only [chunk_key] using hlt
      obtain ⟨stF, hF, hqw, hst, hreg, hnt, hql⟩ :=
        ih (i + 1)
          { num_threads := st.num_threads,
            req_res_map :=
              (regUpdate rid
                (fun r => { r with num_chunks := (r.num_chunks + 1) % 2 ^ 32 })
                st.req_res_map),
            queues := st.queues, queued_writes := st.queued_writes,
            store := st.store ++ [(get_req_prefix_key rid ++ serialize_uint32_t i,
              mkChunkReq rid rh pcoll b false i)] }
          { r0 with num_chunks := i + 1 }
          hgc (by simp) (by omega) (by simp at hlen ⊢; omega)
          (by norm_num at h1 hmod; simp [h1, hmod]) rfl hstore2
      refine ⟨stF, ?_, ?_, ?_, ?_, ?_, ?_⟩
      · exact hF
      · rw [hqw]
        simp only [List.length_cons]
        push_cast
        ring
      · rw [hst]
        simp [chunkEntriesFor, mkChunkReq, chunk_key, List.append_assoc]
      · rw [hreg]
        have harith : i + 1 + (b2 :: rest2).length = i + (b :: b2 :: rest2).length := by
          simp only [List.length_cons]
          omega
        rw [harith]
      · rw [hnt]
      · rw [hql]

theorem enqueueChunks_spec (gr : Nat → Option route_path) (now rid rh : Nat)
    (pcoll : String) (res0 : http_res) (L : List String) (st : BI)
    (hgc : ∀ li, ∃ coll, get_collection_name gr (mkChunkReq rid rh pcoll "" true li) =
      some (coll, mkChunkReq rid rh pcoll "" true li))
    (hne : L ≠ []) (hlen : L.length < 2 ^ 32)
    (hfind : regFind rid st.req_res_map = none)
    (hstore : ∀ kv ∈ st.store, keyLt kv.1 (chunk_key rid 0) = true) :
    ∃ stF recF, enqueueChunks gr now rid rh pcoll res0 st L 0 = some stF ∧
      stF.queued_writes = st.queued_writes + ((L.length : Nat) : Int) ∧
      stF.store = st.store ++ chunkEntriesFor rid rh pcoll L 0 ∧
      regFind rid stF.req_res_map = some recF ∧
      recF.next_chunk_index = 0 ∧ recF.res = res0 ∧
      recF.req.route_hash = rh ∧ recF.num_chunks = L.length ∧
      recF.is_complete = true ∧
      stF.num_threads = st.num_threads := by
  cases L with
  | nil => exact absurd rfl hne
  | cons b rest =>
    have hstep : enqueue_step1 now st (mkChunkReq rid rh pcoll b rest.isEmpty 0) res0 =
        ({ st with req_res_map := (st.req_res_map ++
            [(rid, ⟨"", mkChunkReq rid rh pcoll b rest.isEmpty 0, res0, now, 1, 0, false⟩)]) },
         0) := by
      unfold enqueue_step1
      simp only [mkChunkReq, hfind]
    have hins : ∀ v, storeInsert (get_req_prefix_key rid ++ serialize_uint32_t 0) v st.store
        = st.store ++ [(get_req_prefix_key rid ++ serialize_uint32_t 0, v)] := by
      intro v
      apply storeInsert_append
      simpa only [chunk_key] using hstore
    have hfind1 : regFind rid (st.req_res_map ++
        [(rid, (⟨"", mkChunkReq rid rh pcoll "" rest.isEmpty 0, res0, now, 1, 0, false⟩ :
          req_res_t))]) = some
        ⟨"", mkChunkReq rid rh pcoll "" rest.isEmpty 0, res0, now, 1, 0, false⟩ := by
      rw [regFind_append_right _ hfind]
      simp [regFind]
    cases rest with
    | nil =>
      obtain ⟨coll, hcoll⟩ := hgc 0
      simp only [mkChunkReq] at hcoll
      simp only [mkChunkReq, List.isEmpty_nil] at hstep
      simp only [enqueueChunks, enqueue_main, hstep, mkChunkReq, hins,
        List.isEmpty_nil, if_true, Bool.false_eq_true, if_false, ite_false, ite_true,
        hcoll, Option.some.injEq]
      have hupd : regUpdate rid (fun r => { r with req := { r.req with body := "" } })
          (st.req_res_map ++
            [(rid, ⟨"", mkChunkReq rid rh pcoll b true 0, res0, now, 1, 0, false⟩)]) =
          st.req_res_map ++
            [(rid, ⟨"", mkChunkReq rid rh pcoll "" true 0, res0, now, 1, 0, false⟩)] := by
        rw [regUpdate_append_right _ hfind]
        simp [mkChunkReq]
      simp only [mkChunkReq] at hupd
      refine ⟨_, ⟨"", mkChunkReq rid rh pcoll "" true 0, res0, now, 1, 0, true⟩,
        rfl, ?_, ?_, ?_, rfl, rfl, rfl, rfl, rfl, rfl⟩
      · simp
      · simp [chunkEntriesFor, mkChunkReq, chunk_key]
      · rw [hupd]
        rw [regUpdate_append_right _ hfind]
        rw [regUpdate_append_right _ hfind]
        rw [regFind_append_right _ hfind]
        simp [regFind, mkChunkReq]
    | cons b2 rest2 =>
      simp only [mkChunkReq, List.isEmpty_cons] at hstep
      simp only [List.isEmpty_cons] at hfind1
      simp only [enqueueChunks, enqueue_main, hstep, mkChunkReq, hins,
        List.isEmpty_cons, if_true, Bool.false_eq_true, if_false, ite_false, ite_true]
      have hupd : regUpdate rid (fun r => { r with req := { r.req with body := "" } })
          (st.req_res_map ++
            [(rid, ⟨"", mkChunkReq rid rh pcoll b false 0, res0, now, 1, 0, false⟩)]) =
          st.req_res_map ++
            [(rid, ⟨"", mkChunkReq rid rh pcoll "" false 0, res0, now, 1, 0, false⟩)] := by
        rw [regUpdate_append_right _ hfind]
        simp [mkChunkReq]
      simp only [mkChunkReq] at hupd
      rw [hupd]
      have hlt : keyLt (chunk_key rid 0) (chunk_key rid 1) = true :=
        chunk_key_lt rid (by omega) (by simp at hlen; omega)
      have hstore2 : ∀ kv ∈ (st.store ++ [(get_req_prefix_key rid ++ serialize_uint32_t 0,
          mkChunkReq rid rh pcoll b false 0)]), keyLt kv.1 (chunk_key rid 1) = true := by
        intro kv hm
        simp only [List.mem_append, List.mem_singleton] at hm
        rcases hm with hm | hm
        · exact keyLt_trans (hstore kv hm) hlt
        · rw [hm]
          simpa only [chunk_key] using hlt
      obtain ⟨stF, hF, hqw, hst, hreg, hnt, hql⟩ :=
        enqueueChunks_go gr now rid rh pcoll res0 (b2 :: rest2) 1
          { num_threads := st.num_threads,
            req_res_map := (st.req_res_map ++
              [(rid, ⟨"", mkChunkReq rid rh pcoll "" false 0, res0, now, 1, 0, false⟩)]),
            queues := st.queues, queued_writes := st.queued_writes,
            store := (st.store ++ [(get_req_prefix_key rid ++ serialize_uint32_t 0,
              mkChunkReq rid rh pcoll b false 0)]) }
          ⟨"", mkChunkReq rid rh pcoll "" false 0, res0, now, 1, 0, false⟩
          hgc (by simp) (by omega) (by simp at hlen ⊢; omega)
          hfind1 rfl hstore2
      refine ⟨stF, _, hF, ?_, ?_, hreg, rfl, rfl, rfl, ?_, rfl, ?_⟩
      · rw [hqw]
        simp only [List.length_cons]
        push_cast
        ring
      · rw [hst]
        simp [chunkEntriesFor, mkChunkReq, chunk_key, List.append_assoc]
      · simp only [List.length_cons]
        omega
      · rw [hnt]

/-- C8: a request of k chunks enqueued in order adds exactly k =
chunk_sequence+1 to queued_writes when its last chunk is enqueued, and a full
drain through a found route applies all k chunks, decrementing queued_writes
once per chunk, so the net change over enqueue-then-full-drain is 0. -/
theorem c8_queued_writes_net_zero (gr : Nat → Option route_path) (now rid rh : Nat)
    (pcoll : String) (res0 : http_res) (L : List String) (rp : route_path) (st : BI)
    (hne : L ≠ []) (hlen : L.length < 2 ^ 32)
    (hroute : gr rh = some rp)
    (hfind : regFind rid st.req_res_map = none)
    (hstore : ∀ kv ∈ st.store, keyLt kv.1 (chunk_key rid 0) = true) :
    ∃ stF, enqueueChunks gr now rid rh pcoll res0 st L 0 = some stF ∧
      stF.queued_writes = st.queued_writes + ((L.length : Nat) : Int) ∧
      ∃ st2 ds, runRequest gr (fun _ => false) stF rid = some (st2, ds) ∧
        ds.processed = L.length ∧
        st2.queued_writes = st.queued_writes := by
  have hgc : ∀ li, ∃ coll, get_collection_name gr (mkChunkReq rid rh pcoll "" true li) =
      some (coll, mkChunkReq rid rh pcoll "" true li) := by
    intro li
    apply get_collection_name_empty_body
    · rfl
    · simp [mkChunkReq, hroute]
  obtain ⟨stF, recF, hF, hqw, hstF, hreg, hnci, hres, hrh, hnum, hic, hnt⟩ :=
    enqueueChunks_spec gr now rid rh pcoll res0 L st hgc hne hlen hfind hstore
  refine ⟨stF, hF, hqw, ?_⟩
  have hpre : ∀ kv ∈ chunkEntriesFor rid rh pcoll L 0,
      (get_req_prefix_key rid).isPrefixOf kv.1 = true :=
    chunkEntriesFor_prefix rid rh pcoll L 0
  have hscan : storeScan (get_req_prefix_key rid ++ serialize_uint32_t recF.next_chunk_index)
      stF.store = chunkEntriesFor rid rh pcoll L 0 := by
    rw [hnci, hstF]
    show storeScan (chunk_key rid 0) (st.store ++ chunkEntriesFor rid rh pcoll L 0) = _
    rw [storeScan_append, storeScan_all_lt hstore, storeScan_all_ge]
    · simp
    · intro kv hm
      obtain ⟨j, hj1, hj2, hj3⟩ := chunkEntriesFor_keys rid rh pcoll L 0 kv hm
      rw [hj3]
      exact chunk_key_le rid (Nat.zero_le _) (by omega)
  unfold runRequest
  rw [hreg]
  simp only [hscan, hrh, hroute]
  refine ⟨_, _, rfl, ?_, ?_⟩
  · rw [(drainLoop_run_all rp recF.res.is_alive (get_req_prefix_key rid) rid
      (chunkEntriesFor rid rh pcoll L 0) _ hpre).2.2]
    simp [chunkEntriesFor_length]
  · rw [(drainLoop_run_all rp recF.res.is_alive (get_req_prefix_key rid) rid
      (chunkEntriesFor rid rh pcoll L 0) _ hpre).1]
    simp only [chunkEntriesFor_length]
    show stF.queued_writes - (L.length : Int) = st.queued_writes
    rw [hqw]
    ring

/-- Witness for C8: a two-chunk request to collection "books" with a found
route; queued_writes starts at 4, rises to 6 after the last chunk is
enqueued, and is back to 4 after the full drain. -/
theorem c8_witness :
    ∃ stF, enqueueChunks (fun h => if h == 5 then some ⟨false, false, fun r s => (r, s)⟩ else none)
        100 9 5 "books" ⟨true, 200⟩ ⟨1, [], [[]], 4, []⟩ ["a", "b"] 0 = some stF ∧
      stF.queued_writes = (4 : Int) + ((["a", "b"].length : Nat) : Int) ∧
      ∃ st2 ds, runRequest (fun h => if h == 5 then some ⟨false, false, fun r s => (r, s)⟩ else none)
          (fun _ => false) stF 9 = some (st2, ds) ∧
        ds.processed = ["a", "b"].length ∧
        st2.queued_writes = (4 : Int) :=
  c8_queued_writes_net_zero
    (fun h => if h == 5 then some ⟨false, false, fun r s => (r, s)⟩ else none)
    100 9 5 "books" ⟨true, 200⟩ ["a", "b"] ⟨false, false, fun r s => (r, s)⟩
    ⟨1, [], [[]], 4, []⟩ (by decide) (by decide) rfl rfl (by decide)

/-- C10: for a completed k-chunk request whose route is no longer found at
drain time, the worker breaks out of the drain loop before any decrement of
queued_writes, so queued_writes keeps a permanent net increase of k for that
request even though its chunks are range-deleted and its Registry entry is
erased. -/
theorem c10_queued_writes_leak (gr1 gr2 : Nat → Option route_path) (now rid rh : Nat)
    (pcoll : String) (res0 : http_res) (L : List String) (rp1 : route_path) (st : BI)
    (hne : L ≠ []) (hlen : L.length < 2 ^ 32)
    (hroute1 : gr1 rh = some rp1)
    (hroute2 : gr2 rh = none)
    (hfind : regFind rid st.req_res_map = none)
    (hstore : ∀ kv ∈ st.store, keyLt kv.1 (chunk_key rid 0) = true) :
    ∃ stF, enqueueChunks gr1 now rid rh pcoll res0 st L 0 = some stF ∧
      stF.queued_writes = st.queued_writes + ((L.length : Nat) : Int) ∧
      ∃ st2 ds, runRequest gr2 (fun _ => false) stF rid = some (st2, ds) ∧
        st2.queued_writes = st.queued_writes + ((L.length : Nat) : Int) ∧
        regFind rid st2.req_res_map = none ∧
        (∀ s, s < 2 ^ 32 → storeLookup (chunk_key rid s) st2.store = none) := by
  have hgc : ∀ li, ∃ coll, get_collection_name gr1 (mkChunkReq rid rh pcoll "" true li) =
      some (coll, mkChunkReq rid rh pcoll "" true li) := by
    intro li
    apply get_collection_name_empty_body
    · rfl
    · simp [mkChunkReq, hroute1]
  obtain ⟨stF, recF, hF, hqw, hstF, hreg, hnci, hres, hrh, hnum, hic, hnt⟩ :=
    enqueueChunks_spec gr1 now rid rh pcoll res0 L st hgc hne hlen hfind hstore
  refine ⟨stF, hF, hqw, ?_⟩
  have hscan : storeScan (get_req_prefix_key rid ++ serialize_uint32_t recF.next_chunk_index)
      stF.store = chunkEntriesFor rid rh pcoll L 0 := by
    rw [hnci, hstF]
    show storeScan (chunk_key rid 0) (st.store ++ chunkEntriesFor rid rh pcoll L 0) = _
    rw [storeScan_append, storeScan_all_lt hstore, storeScan_all_ge]
    · simp
    · intro kv hm
      obtain ⟨j, hj1, hj2, hj3⟩ := chunkEntriesFor_keys rid rh pcoll L 0 kv hm
      rw [hj3]
      exact chunk_key_le rid (Nat.zero_le _) (by omega)
  unfold runRequest
  rw [hreg]
  simp only [hscan, hrh, hroute2]
  cases L with
  | nil => exact absurd rfl hne
  | cons b rest =>
    simp only [chunkEntriesFor, drainLoop, chunk_key_isPrefixOf, if_true]
    refine ⟨_, _, rfl, ?_, ?_, ?_⟩
    · exact hqw
    · exact regFind_regErase_self rid stF.req_res_map
    · intro s hs
      exact storeLookup_deleteRange_in (chunk_key_in_delete_range rid hs)

/-- Witness for C10: the two-chunk request of the C8 scenario, drained after
the route table lost route 5: queued_writes stays at 6 while the chunks and
the Registry entry are removed. -/
theorem c10_witness :
    ∃ stF, enqueueChunks (fun h => if h == 5 then some ⟨false, false, fun r s => (r, s)⟩ else none)
        100 9 5 "books" ⟨true, 200⟩ ⟨1, [], [[]], 4, []⟩ ["a", "b"] 0 = some stF ∧
      stF.queued_writes = (4 : Int) + ((["a", "b"].length : Nat) : Int) ∧
      ∃ st2 ds, runRequest (fun _ => none) (fun _ => false) stF 9 = some (st2, ds) ∧
        st2.queued_writes = (4 : Int) + ((["a", "b"].length : Nat) : Int) ∧
        regFind 9 st2.req_res_map = none ∧
        (∀ s, s < 2 ^ 32 → storeLookup (chunk_key 9 s) st2.store = none) :=
  c10_queued_writes_leak
    (fun h => if h == 5 then some ⟨false, false, fun r s => (r, s)⟩ else none)
    (fun _ => none) 100 9 5 "books" ⟨true, 200⟩ ["a", "b"]
    ⟨false, false, fun r s => (r, s)⟩ ⟨1, [], [[]], 4, []⟩
    (by decide) (by decide) rfl rfl rfl (by decide)

theorem load_from_json_init (v : http_req) : load_from_json http_req_init v = v := by
  unfold load_from_json http_req_init
  have : "" ++ v.body = v.body := by
    apply String.ext
    simp [String.data_append]
  simp [this]

theorem regFind_map_transform (t : req_res_t → req_res_t) (rid : Nat) :
    ∀ m : Registry, regFind rid (m.map (fun kv => (kv.1, t kv.2))) =
      (regFind rid m).map t := by
  intro m
  induction m with
  | nil => rfl
  | cons kv rest ih =>
    by_cases he : kv.1 = rid
    · simp [regFind, he]
    · simp only [List.map_cons, regFind, beq_iff_eq, he, if_false]
      exact ih

theorem regFind_of_mem_nodup {m : Registry} {rid : Nat} {rec : req_res_t}
    (hnd : (m.map Prod.fst).Nodup) (hm : (rid, rec) ∈ m) :
    regFind rid m = some rec := by
  induction m with
  | nil => simp at hm
  | cons kv rest ih =>
    simp only [List.map_cons, List.nodup_cons] at hnd
    rcases List.mem_cons.mp hm with hh | hh
    · rw [← hh]
      simp [regFind]
    · have hne : kv.1 ≠ rid := by
        intro hk
        apply hnd.1
        rw [hk]
        exact List.mem_map.mpr ⟨(rid, rec), hh, rfl⟩
      simp only [regFind, beq_iff_eq, hne, if_false]
      exact ih hnd.2 hh

theorem getD_set_spec : ∀ (qs : List (List Nat)) (i : Nat) (x : List Nat) (j : Nat),
    (qs.set i x).getD j [] =
      if i = j ∧ i < qs.length then x else qs.getD j [] := by
  intro qs
  induction qs with
  | nil => intro i x j; simp
  | cons q rest ih =>
    intro i x j
    cases i with
    | zero =>
      cases j with
      | zero => simp
      | succ j2 => simp
    | succ i2 =>
      cases j with
      | zero => simp
      | succ j2 =>
        simp only [List.set, List.getD_cons_succ, List.length_cons]
        rw [ih i2 x j2]
        by_cases hij : i2 = j2
        · subst hij
          by_cases hl : i2 < rest.length
          · rw [if_pos ⟨rfl, hl⟩, if_pos ⟨rfl, by omega⟩]
          · rw [if_neg (by omega), if_neg (by omega)]
        · rw [if_neg (by omega), if_neg (by omega)]

theorem replicate_getD (N q : Nat) : (List.replicate N ([] : List Nat)).getD q [] = [] := by
  induction N generalizing q with
  | zero => simp
  | succ n ih =>
    cases q with
    | zero => simp [List.replicate]
    | succ q2 => simpa [List.replicate] using ih q2

theorem pushAll_length : ∀ (ps : List (Nat × Nat)) (qs : List (List Nat)),
    (ps.foldl (fun qs2 p => queuePush p.1 p.2 qs2) qs).length = qs.length := by
  intro ps
  induction ps with
  | nil => intro qs; rfl
  | cons p rest ih =>
    intro qs
    simp only [List.foldl_cons]
    rw [ih]
    simp [queuePush]

theorem pushAll_getD_mem (rid q : Nat) :
    ∀ (ps : List (Nat × Nat)) (qs : List (List Nat)),
      (∀ p ∈ ps, p.1 < qs.length) →
      (rid ∈ (ps.foldl (fun qs2 p => queuePush p.1 p.2 qs2) qs).getD q [] ↔
        rid ∈ qs.getD q [] ∨ (q, rid) ∈ ps) := by
  intro ps
  induction ps with
  | nil => intro qs h; simp
  | cons p rest ih =>
    obtain ⟨p1, p2⟩ := p
    intro qs h
    simp only [List.foldl_cons]
    rw [ih _ (fun pp hm => by
      rw [show (queuePush p1 p2 qs).length = qs.length by simp [queuePush]]
      exact h pp (List.mem_cons_of_mem _ hm))]
    have hset : (queuePush p1 p2 qs).getD q [] =
        if p1 = q ∧ p1 < qs.length then qs.getD p1 [] ++ [p2] else qs.getD q [] := by
      unfold queuePush
      rw [getD_set_spec]
    rw [hset]
    by_cases hq : p1 = q
    · subst hq
      rw [if_pos ⟨rfl, h (p1, p2) (by simp)⟩]
      simp only [List.mem_append, List.mem_cons, Prod.mk.injEq, List.not_mem_nil,
        or_false, true_and]
      tauto
    · rw [if_neg (by intro hc; exact hq hc.1)]
      simp only [List.mem_cons, Prod.mk.injEq]
      have hne : ¬ (q = p1 ∧ rid = p2) := fun hc => hq hc.1.symm
      tauto

theorem pushAll_getD_untouched (q : Nat) :
    ∀ (ps : List (Nat × Nat)) (qs : List (List Nat)),
      q ∉ ps.map Prod.fst →
      (ps.foldl (fun qs2 p => queuePush p.1 p.2 qs2) qs).getD q [] = qs.getD q [] := by
  intro ps
  induction ps with
  | nil => intro qs h; rfl
  | cons p rest ih =>
    intro qs h
    simp only [List.map_cons, List.mem_cons] at h
    push_neg at h
    simp only [List.foldl_cons]
    rw [ih _ h.2]
    unfold queuePush
    rw [getD_set_spec]
    rw [if_neg (by intro hc; exact h.1 hc.1.symm)]

theorem sortQueues_getD_mem (rid : Nat) :
    ∀ (qids : List Nat) (qs : List (List Nat)) (q : Nat),
      (rid ∈ (sortQueues qids qs).getD q [] ↔ rid ∈ qs.getD q []) := by
  intro qids
  induction qids with
  | nil => intro qs q; exact Iff.rfl
  | cons q0 rest ih =>
    intro qs q
    have hstep : sortQueues (q0 :: rest) qs =
        sortQueues rest (qs.set q0 (List.insertionSort (· ≤ ·) (qs.getD q0 []))) := rfl
    rw [hstep, ih]
    rw [getD_set_spec]
    by_cases hq : q0 = q ∧ q0 < qs.length
    · rw [if_pos hq]
      obtain ⟨heq, hl⟩ := hq
      subst heq
      exact (List.perm_insertionSort _ _).mem_iff
    · rw [if_neg hq]

theorem sortQueues_sorted :
    ∀ (qids : List Nat) (qs : List (List Nat)) (q : Nat),
      (q ∈ qids ∨ (qs.getD q []).Sorted (· ≤ ·)) →
      ((sortQueues qids qs).getD q []).Sorted (· ≤ ·) := by
  intro qids
  induction qids with
  | nil =>
    intro qs q h
    rcases h with h | h
    · simp at h
    · exact h
  | cons q0 rest ih =>
    intro qs q h
    have hstep : sortQueues (q0 :: rest) qs =
        sortQueues rest (qs.set q0 (List.insertionSort (· ≤ ·) (qs.getD q0 []))) := rfl
    rw [hstep]
    apply ih
    rcases h with h | h
    · rcases List.mem_cons.mp h with h1 | h1
      · subst h1
        right
        rw [getD_set_spec]
        by_cases hl : q < qs.length
        · rw [if_pos ⟨rfl, hl⟩]
          exact List.sorted_insertionSort _ _
        · rw [if_neg (by tauto)]
          have hd : qs.getD q [] = [] := List.getD_eq_default _ _ (by omega)
          rw [hd]
          exact List.sorted_nil
      · left
        exact h1
    · right
      rw [getD_set_spec]
      by_cases hc : q0 = q ∧ q0 < qs.length
      · rw [if_pos hc]
        exact List.sorted_insertionSort _ _
      · rw [if_neg hc]
        exact h

theorem load_entries_spec (gr : Nat → Option route_path) (N : Nat) :
    ∀ (es : List (Nat × snap_entry)) (st0 : BI) (qids0 : List Nat),
      (∀ e ∈ es, e.2.is_complete = true →
        ∃ c, get_collection_name gr e.2.req = some (c, e.2.req)) →
      (∀ e ∈ es, regFind e.1 st0.req_res_map = none) →
      ((es.map Prod.fst).Nodup) →
      ∃ stF qidsF, load_entries gr N es st0 qids0 = some (stF, qidsF) ∧
        stF.req_res_map = st0.req_res_map ++ es.map (fun e =>
          (e.1, (⟨e.2.prev_req_body, e.2.req, http_res_init, e.2.batch_begin_ts,
                 e.2.num_chunks, e.2.next_chunk_index, e.2.is_complete⟩ : req_res_t))) ∧
        stF.queued_writes = st0.queued_writes ∧
        stF.num_threads = st0.num_threads ∧
        stF.queues = (es.filterMap (fun e =>
            if e.2.is_complete then
              (get_collection_name gr e.2.req).map
                (fun pr => (enqueue_queue_id pr.1 N, pr.2.start_ts))
            else none)).foldl (fun qs2 p => queuePush p.1 p.2 qs2) st0.queues ∧
        qidsF = qids0 ++ (es.filterMap (fun e =>
            if e.2.is_complete then
              (get_collection_name gr e.2.req).map
                (fun pr => (enqueue_queue_id pr.1 N, pr.2.start_ts))
            else none)).map Prod.fst := by
  intro es
  induction es with
  | nil =>
    intro st0 qids0 _ _ _
    exact ⟨st0, qids0, rfl, by simp, rfl, rfl, rfl, by simp⟩
  | cons e rest ih =>
    obtain ⟨rid, en⟩ := e
    intro st0 qids0 hsafe hdisj hnd
    have hdisj0 : regFind rid st0.req_res_map = none := hdisj (rid, en) (by simp)
    simp only [List.map_cons, List.nodup_cons] at hnd
    cases hic : en.is_complete with
    | false =>
      simp only [load_entries, load_from_json_init, hic, Bool.false_eq_true, if_false]
      obtain ⟨stF, qidsF, hload, hmap, hq, hnt, hqs, hqids⟩ :=
        ih { st0 with req_res_map := (st0.req_res_map ++
              [(rid, ⟨en.prev_req_body, en.req, http_res_init, en.batch_begin_ts,
                en.num_chunks, en.next_chunk_index, en.is_complete⟩)]) } qids0
          (fun e2 hm hc => hsafe e2 (List.mem_cons_of_mem _ hm) hc)
          (fun e2 hm => by
            show regFind e2.1 (st0.req_res_map ++ _) = none
            rw [regFind_append_right _ (hdisj e2 (List.mem_cons_of_mem _ hm))]
            have hne : e2.1 ≠ rid := by
              intro hh
              apply hnd.1
              rw [← hh]
              exact List.mem_map.mpr ⟨e2, hm, rfl⟩
            simp [regFind, hne, Ne.symm hne])
          hnd.2
      rw [hic] at hload hmap
      refine ⟨stF, qidsF, hload, ?_, hq, hnt, ?_, ?_⟩
      · rw [hmap]
        simp [hic, List.append_assoc]
      · rw [hqs]
        simp [hic]
      · rw [hqids]
        simp [hic]
    | true =>
      obtain ⟨c, hc⟩ := hsafe (rid, en) (by simp) hic
      simp only [load_entries, load_from_json_init, hic, if_true, hc, Option.map_some]
      have hupd : regUpdate rid (fun r => { r with req := en.req })
          (st0.req_res_map ++
            [(rid, ⟨en.prev_req_body, en.req, http_res_init, en.batch_begin_ts,
              en.num_chunks, en.next_chunk_index, en.is_complete⟩)]) =
          st0.req_res_map ++
            [(rid, ⟨en.prev_req_body, en.req, http_res_init, en.batch_begin_ts,
              en.num_chunks, en.next_chunk_index, en.is_complete⟩)] := by
        rw [regUpdate_append_right _ hdisj0]
      rw [hic] at hupd
      rw [hupd]
      obtain ⟨stF, qidsF, hload, hmap, hq, hnt, hqs, hqids⟩ :=
        ih { st0 with
              req_res_map := (st0.req_res_map ++
                [(rid, ⟨en.prev_req_body, en.req, http_res_init, en.batch_begin_ts,
                  en.num_chunks, en.next_chunk_index, en.is_complete⟩)]),
              queues := queuePush (enqueue_queue_id c N) en.req.start_ts st0.queues }
          (qids0 ++ [enqueue_queue_id c N])
          (fun e2 hm hc2 => hsafe e2 (List.mem_cons_of_mem _ hm) hc2)
          (fun e2 hm => by
            show regFind e2.1 (st0.req_res_map ++ _) = none
            rw [regFind_append_right _ (hdisj e2 (List.mem_cons_of_mem _ hm))]
            have hne : e2.1 ≠ rid := by
              intro hh
              apply hnd.1
              rw [← hh]
              exact List.mem_map.mpr ⟨e2, hm, rfl⟩
            simp [regFind, hne, Ne.symm hne])
          hnd.2
      rw [hic] at hload hmap
      refine ⟨stF, qidsF, hload, ?_, hq, hnt, ?_, ?_⟩
      · rw [hmap]
        simp [hic, List.append_assoc]
      · rw [hqs]
        simp [hic, hc]
      · rw [hqids]
        simp [hic, hc]

/-- C4: Snapshot round-trip.  For every Registry state with distinct req_ids
whose requests carry their req_id as start_ts (the upstream convention) and
whose complete records resolve their collection without mutating the request,
load_state on the serialize_state document succeeds and reconstructs, for each
req_id, a record with the same prev_req_body, serialized request,
batch_begin_ts, num_chunks, next_chunk_index and is_complete (and a fresh
response handle); restores queued_writes to the serialized value; places a
req_id in shard queue q exactly when its record is complete and its
collection-derived shard is q (so incomplete records are enqueued nowhere);
and leaves every shard queue sorted in ascending req_id order. -/
theorem c4_snapshot_roundtrip (gr : Nat → Option route_path) (N : Nat) (st : BI)
    (hN : 0 < N)
    (hnd : (st.req_res_map.map Prod.fst).Nodup)
    (hids : ∀ kv ∈ st.req_res_map, kv.2.req.start_ts = kv.1)
    (hsafe : ∀ kv ∈ st.req_res_map, kv.2.is_complete = true →
      ∃ c, get_collection_name gr kv.2.req = some (c, kv.2.req)) :
    ∃ st', load_state gr N (serialize_state st) = some st' ∧
      st'.queued_writes = st.queued_writes ∧
      st'.num_threads = N ∧
      (∀ rid, regFind rid st'.req_res_map = (regFind rid st.req_res_map).map
        (fun r => (⟨r.prev_req_body, r.req, http_res_init, r.batch_begin_ts,
                    r.num_chunks, r.next_chunk_index, r.is_complete⟩ : req_res_t))) ∧
      (∀ q rid, rid ∈ st'.queues.getD q [] ↔
        ∃ r c, regFind rid st.req_res_map = some r ∧ r.is_complete = true ∧
          get_collection_name gr r.req = some (c, r.req) ∧ enqueue_queue_id c N = q) ∧
      (∀ q, (st'.queues.getD q []).Sorted (· ≤ ·)) := by
  obtain ⟨stF, qidsF, hload, hmap, hqw, hnt, hqs, hqids⟩ :=
    load_entries_spec gr N
      (st.req_res_map.map (fun kv =>
        (kv.1, (⟨kv.2.batch_begin_ts, kv.2.num_chunks, kv.2.next_chunk_index,
                 kv.2.is_complete, kv.2.req, kv.2.prev_req_body⟩ : snap_entry))))
      { num_threads := N, req_res_map := [], queues := List.replicate N [],
        queued_writes := st.queued_writes, store := [] }
      []
      (fun e he hic => by
        obtain ⟨kv, hkv, hke⟩ := List.mem_map.mp he
        subst hke
        exact hsafe kv hkv hic)
      (fun e he => rfl)
      (by
        rw [List.map_map]
        exact hnd)
  have hls : load_state gr N (serialize_state st) =
      (load_entries gr N
        (st.req_res_map.map (fun kv =>
          (kv.1, (⟨kv.2.batch_begin_ts, kv.2.num_chunks, kv.2.next_chunk_index,
                   kv.2.is_complete, kv.2.req, kv.2.prev_req_body⟩ : snap_entry))))
        { num_threads := N, req_res_map := [], queues := List.replicate N [],
          queued_writes := st.queued_writes, store := [] }
        []).map
        (fun p => { p.1 with queues := sortQueues p.2 p.1.queues }) := rfl
  have hq0 : ({ num_threads := N, req_res_map := [], queues := List.replicate N [],
                queued_writes := st.queued_writes, store := [] } : BI).queues =
      List.replicate N [] := rfl
  have h00 : ({ num_threads := N, req_res_map := [], queues := List.replicate N [],
                queued_writes := st.queued_writes, store := [] } : BI).req_res_map =
      ([] : Registry) := rfl
  have hrange : ∀ p ∈ (st.req_res_map.map (fun kv =>
        (kv.1, (⟨kv.2.batch_begin_ts, kv.2.num_chunks, kv.2.next_chunk_index,
                 kv.2.is_complete, kv.2.req, kv.2.prev_req_body⟩ : snap_entry)))).filterMap
        (fun e => if e.2.is_complete then
            (get_collection_name gr e.2.req).map
              (fun pr => (enqueue_queue_id pr.1 N, pr.2.start_ts))
          else none),
      p.1 < (List.replicate N ([] : List Nat)).length := by
    simp only [List.length_replicate]
    intro p hp
    obtain ⟨e, he, hfe⟩ := List.mem_filterMap.mp hp
    obtain ⟨kv, hkv, hke⟩ := List.mem_map.mp he
    subst hke
    obtain ⟨k1, r1⟩ := kv
    cases hic : r1.is_complete with
    | false => simp [hic] at hfe
    | true =>
      obtain ⟨c, hc⟩ := hsafe (k1, r1) hkv hic
      simp only [hic, if_true, hc, Option.map_some', Option.some.injEq] at hfe
      rw [← hfe]
      exact Nat.mod_lt _ hN
  refine ⟨{ stF with queues := sortQueues qidsF stF.queues }, ?_, ?_, ?_, ?_, ?_, ?_⟩
  · rw [hls, hload]
    rfl
  · exact hqw
  · exact hnt
  · intro rid
    show regFind rid stF.req_res_map = (regFind rid st.req_res_map).map
      (fun r => (⟨r.prev_req_body, r.req, http_res_init, r.batch_begin_ts,
                  r.num_chunks, r.next_chunk_index, r.is_complete⟩ : req_res_t))
    rw [hmap, h00, List.nil_append, List.map_map]
    exact regFind_map_transform
      (fun r => (⟨r.prev_req_body, r.req, http_res_init, r.batch_begin_ts,
                  r.num_chunks, r.next_chunk_index, r.is_complete⟩ : req_res_t))
      rid st.req_res_map
  · intro q rid
    show rid ∈ (sortQueues qidsF stF.queues).getD q [] ↔
      ∃ r c, regFind rid st.req_res_map = some r ∧ r.is_complete = true ∧
        get_collection_name gr r.req = some (c, r.req) ∧ enqueue_queue_id c N = q
    rw [sortQueues_getD_mem rid qidsF stF.queues q]
    rw [hqs, hq0]
    rw [pushAll_getD_mem rid q _ _ hrange]
    rw [replicate_getD N q]
    simp only [List.not_mem_nil, false_or]
    constructor
    · intro hp
      obtain ⟨e, he, hfe⟩ := List.mem_filterMap.mp hp
      obtain ⟨kv, hkv, hke⟩ := List.mem_map.mp he
      subst hke
      obtain ⟨k1, r1⟩ := kv
      cases hic : r1.is_complete with
      | false => simp [hic] at hfe
      | true =>
        obtain ⟨c, hc⟩ := hsafe (k1, r1) hkv hic
        simp only [hic, if_true, hc, Option.map_some', Option.some.injEq,
          Prod.mk.injEq] at hfe
        obtain ⟨hq1, hr1⟩ := hfe
        have hst : r1.req.start_ts = k1 := hids (k1, r1) hkv
        have hrid : rid = k1 := by
          rw [← hr1]
          exact hst
        subst hrid
        exact ⟨r1, c, regFind_of_mem_nodup hnd hkv, hic, hc, hq1⟩
    · rintro ⟨r, c, hfind, hic, hc, hqe⟩
      have hm := regFind_mem hfind
      have hst : r.req.start_ts = rid := hids (rid, r) hm
      refine List.mem_filterMap.mpr ⟨_, List.mem_map.mpr ⟨(rid, r), hm, rfl⟩, ?_⟩
      simp [hic, hc, hqe, hst]
  · intro q
    show ((sortQueues qidsF stF.queues).getD q []).Sorted (· ≤ ·)
    apply sortQueues_sorted
    by_cases hq : q ∈ qidsF
    · exact Or.inl hq
    · right
      rw [hqs, hq0]
      have hq' : q ∉ ((st.req_res_map.map (fun kv =>
          (kv.1, (⟨kv.2.batch_begin_ts, kv.2.num_chunks, kv.2.next_chunk_index,
                   kv.2.is_complete, kv.2.req, kv.2.prev_req_body⟩ : snap_entry)))).filterMap
          (fun e => if e.2.is_complete then
              (get_collection_name gr e.2.req).map
                (fun pr => (enqueue_queue_id pr.1 N, pr.2.start_ts))
            else none)).map Prod.fst := by
        intro hcont
        apply hq
        rw [hqids]
        simpa using hcont
      rw [pushAll_getD_untouched q _ _ hq']
      rw [replicate_getD N q]
      exact List.sorted_nil

/-- Witness for C4 at a concrete one-record, one-thread state. -/
theorem c4_witness :
    ∃ st', load_state (fun h => (none : Option route_path)) 1 (serialize_state
        ⟨1, [(5, ⟨"", mkChunkReq 5 42 "books" "" true 0, http_res_init, 0, 1, 1, true⟩)],
         [[]], 7, []⟩) = some st' ∧
      st'.queued_writes = 7 ∧ 5 ∈ st'.queues.getD 0 [] := by
  obtain ⟨st', h1, h2, h3, h4, h5, h6⟩ :=
    c4_snapshot_roundtrip (fun h => (none : Option route_path)) 1
      ⟨1, [(5, ⟨"", mkChunkReq 5 42 "books" "" true 0, http_res_init, 0, 1, 1, true⟩)],
       [[]], 7, []⟩
      (by decide)
      (by decide)
      (by decide)
      (by
        intro kv hm hic
        have hkv : kv =
            (5, ⟨"", mkChunkReq 5 42 "books" "" true 0, http_res_init, 0, 1, 1, true⟩) := by
          simpa using hm
        subst hkv
        exact ⟨"books", by decide⟩)
  refine ⟨st', h1, by rw [h2], ?_⟩
  exact (h5 0 5).mpr
    ⟨⟨"", mkChunkReq 5 42 "books" "" true 0, http_res_init, 0, 1, 1, true⟩, "books",
     by decide, rfl, by decide, by decide⟩
